import Mathlib

/-!
# Convolution manager and convolution workers (aplibs-dsp/Convolver.cpp)

A shallow embedding of `ConvolverManager` and `Convolver`, followed by
`LoadedVersions` (src/LoadedVersions.cpp) and the index computations of `SOFA`
(aplibs-dsp/SOFA.cpp).

Modelling conventions.

* `float` and `double` values are rationals (`ℚ`).  Arithmetic on sample values,
  scales and delays is carried out without rounding.  The read position of the
  delay stage feeds an integer cast, where rounding decides which sample is
  read: it is computed with every `double` operation rounded to 53 significant
  bits, to nearest and ties to even (`roundDouble`, `Process.fposDouble`), without
  fused multiply-add.
* Raw buffers (`float *`) are total functions `Nat → ℚ`; a pointer into a buffer
  is the buffer shifted by the pointer offset.
* `std::vector` is `List`.
* Counts and indices (`uint_t`, `size_t`) are natural numbers.  The widths of the
  machine types are modelled where the length of a file is narrowed by a cast, in
  `LoadIRs`; sizes of containers held in memory are taken to fit `uint_t`.
* A pointer to an element of the manager's filter bank (`const APFFilter *`) is
  the index of that element (`FilterRef`); the null pointer is `none`.
* The APF partitioned convolution engine (`apf::conv::Convolver`) and the
  `FractionalSample` interpolator are libraries outside this repository; they
  enter as parameters (`APFConvolver`, `FractionalSample`).
* The outcome of `pthread_create` is a parameter of the worker constructor.
* Threads are not interleaved: a worker whose thread exists and has not been told
  to quit runs one pass of `Process` after its start signal, and the manager
  mixes its output after that.  A worker without thread never sends its done
  signal: the manager then waits for ever, and `Convolve.result` is `none`.
* The calls a worker makes to its engine are observed through `APFConvolver.logged`.
* `ERROR` and `DEBUG` only write to the log and are left out.
-/

namespace Bbcat

/-! ## Data model -/

/-- Address of an element of `ConvolverManager::filters`, as its index. -/
abbrev FilterRef := Nat

/-- The type `APFFilter`: a prepared (partitioned) filter.  `response` is the time-domain
response it was prepared from (`prepare_filter`). -/
structure APFFilter where
  blocksize : Nat
  partitions : Nat
  response : List ℚ
deriving DecidableEq

/-- Interface of the external convolution engine (`APFConvolver`), over an
engine state `σ`.  `convolve` returns the result block and the new state. -/
structure APFConvolver (σ : Type) where
  create : Nat → Nat → σ
  add_block : σ → (Nat → ℚ) → σ
  convolve : σ → ℚ → (Nat → ℚ) × σ
  set_filter : σ → FilterRef → σ
  queues_empty : σ → Bool
  rotate_queues : σ → σ

/-- A convolution worker (`class Convolver`).  The last four fields are the
locals of `Convolver::Process`, which live as long as the worker thread. -/
structure Convolver (σ : Type) where
  thread : Nat
  convolver : σ
  blocksize : Nat
  convindex : Nat
  scale : ℚ
  filter : Option FilterRef
  input : Nat → ℚ
  output : Nat → ℚ
  outputdelay : ℚ
  quitthread : Bool
  hqproc : Bool
  convfilter : Option FilterRef
  delaypos : Nat
  delay : Nat → ℚ
  delay1 : ℚ

/-- State of `class ConvolverManager`. -/
structure ConvolverManager (σ : Type) where
  blocksize : Nat
  partitions : Nat
  filters : List APFFilter
  irdelays : List ℚ
  mindelay : ℚ
  delayscale : ℚ
  audioscale : ℚ
  hqproc : Bool
  convolvers : List (Convolver σ)

variable {σ : Type}

/-! ## Convolver::SetResponse and ConvolverManager::SelectIR -/

/-- The method `Convolver::SetResponse(newfilter, delay)`. -/
def Convolver.SetResponse (w : Convolver σ) (newfilter : FilterRef) (delay : ℚ) :
    Convolver σ :=
  let w1 := if some newfilter ≠ w.filter then { w with filter := some newfilter } else w
  { w1 with outputdelay := delay }

/-- The delay computed in `SelectIR` (lines 193-199): zero unless a delay is
available for this IR. -/
def ConvolverManager.irDelay (m : ConvolverManager σ) (ir : Nat) : ℚ :=
  if h : ir < m.irdelays.length then (m.irdelays[ir] - m.mindelay) * m.delayscale else 0

/-- The method `ConvolverManager::SelectIR(convolver, ir)`: the returned flag and the
manager state afterwards. -/
def ConvolverManager.SelectIR (m : ConvolverManager σ) (convolver ir : Nat) :
    Bool × ConvolverManager σ :=
  if h : convolver < m.convolvers.length then
    if ir < m.filters.length then
      let delay := m.irDelay ir
      (true, { m with convolvers :=
        m.convolvers.set convolver (m.convolvers[convolver].SetResponse ir delay) })
    else (false, m)
  else (false, m)

/-- Dereference a filter pointer in the manager's filter bank. -/
def ConvolverManager.filterAt (m : ConvolverManager σ) (r : FilterRef) : Option APFFilter :=
  m.filters[r]?

/-! ## ConvolverManager::LoadIRDelays -/

/-- The `fscanf` loop of `LoadIRDelays` over the readings of the file, on the
state `(irdelays, mindelay, initialreading)`. -/
def ConvolverManager.LoadIRDelays.loop : List ℚ → List ℚ × ℚ × Bool → List ℚ × ℚ × Bool
  | [], st => st
  | delay :: rest, (irdelays, mindelay, initialreading) =>
    LoadIRDelays.loop rest
      (irdelays ++ [delay],
       if initialreading || decide (delay < mindelay) then delay else mindelay,
       false)

/-- The method `ConvolverManager::LoadIRDelays(filename)`.  The file is `none` when it
cannot be opened, else the sequence of numbers `fscanf` reads from it. -/
def ConvolverManager.LoadIRDelays (m : ConvolverManager σ) (file : Option (List ℚ)) :
    ConvolverManager σ :=
  let m0 := { m with irdelays := [], mindelay := 0 }
  match file with
  | some readings =>
    let r := LoadIRDelays.loop readings (m0.irdelays, m0.mindelay, true)
    { m0 with irdelays := r.1, mindelay := r.2.1 }
  | none => m0

/-! ## ConvolverManager::LoadIRs -/

/-- Bit widths of the integer types `uint_t` and `ulong_t`, whose declarations
are not part of the sources at hand (`ulong` is at least as wide as `uint`). -/
structure IntWidths where
  uint : Nat
  ulong : Nat

/-- The widths on an LP64 platform: `unsigned int` 32 bits, `unsigned long` 64. -/
def lp64 : IntWidths := { uint := 32, ulong := 64 }

/-- An opened sound file (`SndfileHandle`): frame count, channel count and the
interleaved sample data. -/
structure IRFile where
  frames : Nat
  channels : Nat
  samples : Nat → ℚ

/-- Line 81: `partitions = (uint_t)((len + blocksize - 1) / blocksize)`, the
sum and the quotient in `ulong_t`, the result cast to `uint_t`. -/
def ConvolverManager.LoadIRs.partitions (W : IntWidths) (len blocksize : Nat) : Nat :=
  ((((len + blocksize) % 2 ^ W.ulong + 2 ^ W.ulong - 1) % 2 ^ W.ulong) / blocksize)
    % 2 ^ W.uint

/-- Lines 89 and 107: the number of samples `blocksize * partitions` of the
response buffer, a product of two `uint_t`. -/
def ConvolverManager.LoadIRs.responseLength (W : IntWidths) (blocksize partitions : Nat) :
    Nat :=
  (blocksize * partitions) % 2 ^ W.uint

/-- Lines 88-109: the filter prepared for channel `i` of `n`: the sample buffer is
zeroed, filled by `file.read`, and channel `i` is de-interleaved into `response`. -/
def ConvolverManager.LoadIRs.filter (W : IntWidths) (file : IRFile) (blocksize partitions : Nat)
    (i : Nat) : APFFilter :=
  let n := file.channels
  let size := (blocksize * partitions * n) % 2 ^ W.uint
  let nread := min size (file.frames * n)
  let sampledata : Nat → ℚ := fun p => if p < nread then file.samples p else 0
  { blocksize := blocksize
    partitions := partitions
    response := (List.range (LoadIRs.responseLength W blocksize partitions)).map
      (fun j => sampledata (j * n + i)) }

/-- The method `ConvolverManager::LoadIRs(filename)`; the file is `none` when it cannot be
opened.  (`CreateConvolver` uses `new`, which does not return `NULL`.) -/
def ConvolverManager.LoadIRs (W : IntWidths) (m : ConvolverManager σ) (file : Option IRFile) :
    ConvolverManager σ :=
  let m0 := { m with filters := [] }
  match file with
  | some f =>
    let partitions := LoadIRs.partitions W f.frames m0.blocksize
    { m0 with
      partitions := partitions
      audioscale := 1 / 8
      filters := (List.range f.channels).map (LoadIRs.filter W f m0.blocksize partitions) }
  | none => m0

/-- The constructor `ConvolverManager(irfile, irdelayfile, partitionsize)`. -/
def ConvolverManager.new (W : IntWidths) (irfile : Option IRFile)
    (irdelayfile : Option (List ℚ)) (partitionsize : Nat) : ConvolverManager σ :=
  let m : ConvolverManager σ :=
    { blocksize := partitionsize, partitions := 0, filters := [], irdelays := [],
      mindelay := 0, delayscale := 1, audioscale := 1, hqproc := true, convolvers := [] }
  (m.LoadIRs W irfile).LoadIRDelays irdelayfile

/-! ## Convolver construction and ConvolverManager::SetConvolverCount -/

/-- The method `ConvolverManager::CreateConvolver()`. -/
def ConvolverManager.CreateConvolver (E : APFConvolver σ) (m : ConvolverManager σ) : σ :=
  E.create m.blocksize m.partitions

/-- The constructor `Convolver(_convindex, _blocksize, _convolver, _scale)`.
`pthread_create` gives the outcome of thread creation for the worker being built:
`some h` is success with handle `h`, `none` is failure, after which `thread = 0`.
The buffers `input` and `output` and the flag `hqproc` are not initialised by
the constructor; they are given the value zero / false.  The locals of `Process`
are at their initial values (delay memory cleared, write position 0). -/
def Convolver.new (pthread_create : Nat → Option Nat) (_convindex _blocksize : Nat)
    (_convolver : σ) (_scale : ℚ) : Convolver σ :=
  { thread := match pthread_create _convindex with
      | some h => h
      | none => 0
    convolver := _convolver
    blocksize := _blocksize
    convindex := _convindex
    scale := _scale
    filter := none
    input := fun _ => 0
    output := fun _ => 0
    outputdelay := 0
    quitthread := false
    hqproc := false
    convfilter := none
    delaypos := 0
    delay := fun _ => 0
    delay1 := 0 }

/-- The expression `new Convolver(...)` as a possibly-null pointer: `operator new`
does not return `NULL`. -/
def Convolver.alloc (w : Convolver σ) : Option (Convolver σ) := some w

/-- The first loop of `SetConvolverCount` (lines 157-168), on the pool and a
count of the workers created.  It runs at most `nconvolvers - size` times. -/
def ConvolverManager.SetConvolverCount.create (E : APFConvolver σ) (m : ConvolverManager σ)
    (pthread_create : Nat → Option Nat) (nconvolvers : Nat) :
    Nat → List (Convolver σ) × Nat → List (Convolver σ) × Nat
  | 0, st => st
  | fuel + 1, (pool, created) =>
    if pool.length < nconvolvers then
      match Convolver.alloc
          (Convolver.new pthread_create pool.length m.blocksize (m.CreateConvolver E)
            m.audioscale) with
      | some conv => SetConvolverCount.create E m pthread_create nconvolvers fuel
          (pool ++ [conv], created + 1)
      | none => (pool, created)
    else (pool, created)

/-- The second loop of `SetConvolverCount` (lines 171-175), on the pool and a
count of the workers destroyed.  It runs at most `size - nconvolvers` times. -/
def ConvolverManager.SetConvolverCount.destroy (nconvolvers : Nat) :
    Nat → List (Convolver σ) × Nat → List (Convolver σ) × Nat
  | 0, st => st
  | fuel + 1, (pool, destroyed) =>
    if pool.length > nconvolvers then
      SetConvolverCount.destroy nconvolvers fuel (pool.dropLast, destroyed + 1)
    else (pool, destroyed)

/-- The method `SetConvolverCount` with its bookkeeping: the pool afterwards, the number of
workers created and the number destroyed. -/
def ConvolverManager.SetConvolverCount.run (E : APFConvolver σ) (m : ConvolverManager σ)
    (pthread_create : Nat → Option Nat) (nconvolvers : Nat) :
    List (Convolver σ) × Nat × Nat :=
  let r1 := SetConvolverCount.create E m pthread_create nconvolvers
    (nconvolvers - m.convolvers.length) (m.convolvers, 0)
  let r2 := SetConvolverCount.destroy nconvolvers (r1.1.length - nconvolvers) (r1.1, 0)
  (r2.1, r1.2, r2.2)

/-- The method `ConvolverManager::SetConvolverCount(nconvolvers)`. -/
def ConvolverManager.SetConvolverCount (E : APFConvolver σ) (m : ConvolverManager σ)
    (pthread_create : Nat → Option Nat) (nconvolvers : Nat) : ConvolverManager σ :=
  { m with convolvers := (SetConvolverCount.run E m pthread_create nconvolvers).1 }

/-- The worker that `SetConvolverCount` builds at position `i` of the pool. -/
def ConvolverManager.SetConvolverCount.worker (E : APFConvolver σ) (m : ConvolverManager σ)
    (pthread_create : Nat → Option Nat) (i : Nat) : Convolver σ :=
  Convolver.new pthread_create i m.blocksize (m.CreateConvolver E) m.audioscale

/-- The method `Convolver::StartConvolution(_input, inputchannels, _hqproc)`, up to the
release of the worker thread.  The pointer `_input` is the offset `_input` into
the buffer `mem`. -/
def Convolver.StartConvolution (w : Convolver σ) (mem : Nat → ℚ) (_input : Nat)
    (inputchannels : Nat) (_hqproc : Bool) : Convolver σ :=
  let input : Nat → ℚ :=
    fun i => if i < w.blocksize then mem (_input + i * inputchannels) else w.input i
  { w with
    input := input
    output := fun i => if i < w.blocksize then input i else w.output i
    hqproc := _hqproc }

/-- The method `Convolver::EndConvolution(_output, outputchannels)`, from the return of the
wait for the done signal: the buffer `mem` after the worker output has been mixed
in at the pointer `_output` (an offset into `mem`). -/
def Convolver.EndConvolution (w : Convolver σ) (mem : Nat → ℚ) (_output : Nat)
    (outputchannels : Nat) : Nat → ℚ :=
  (List.range w.blocksize).foldl
    (fun out i =>
      Function.update out (_output + i * outputchannels)
        (out (_output + i * outputchannels) + w.output i))
    mem

/-! ## Convolver::Process -/

/-- Round to the nearest integer, ties to the even one. -/
def roundHalfEven (x : ℚ) : ℤ :=
  if x - ⌊x⌋ < 1 / 2 then ⌊x⌋
  else if 1 / 2 < x - ⌊x⌋ then ⌊x⌋ + 1
  else if ⌊x⌋ % 2 = 0 then ⌊x⌋ else ⌊x⌋ + 1

/-- The `double` nearest to `x` (IEEE 754 binary64, round to nearest, ties to
even): `x` is rounded to 53 significant bits.  Overflow and subnormal numbers
are not modelled. -/
def roundDouble (x : ℚ) : ℚ :=
  if x = 0 then 0
  else (roundHalfEven (x / 2 ^ (Int.log 2 |x| - 52)) : ℚ) * 2 ^ (Int.log 2 |x| - 52)

/-- The cast `(uint_t)x` of a `double`: the fractional part is dropped (rounding
toward zero); a negative integer part wraps modulo `2 ^ 32`, and a non-negative
one is taken to fit `uint_t`, as all counts are. -/
def truncUInt (x : ℚ) : Nat :=
  if 0 ≤ (if 0 ≤ x then ⌊x⌋ else -⌊-x⌋) then Int.toNat (if 0 ≤ x then ⌊x⌋ else -⌊-x⌋)
  else Int.toNat ((if 0 ≤ x then ⌊x⌋ else -⌊-x⌋) % 2 ^ 32)

/-- The ramp weight `b = (double)i / (double)blocksize` of sample `i`. -/
def Convolver.rampB (w : Convolver σ) (i : Nat) : ℚ := (i : ℚ) / (w.blocksize : ℚ)

/-- Lines 393-401: the result of the first convolution and the engine after it. -/
def Convolver.Process.first (E : APFConvolver σ) (w : Convolver σ) : (Nat → ℚ) × σ :=
  E.convolve (E.add_block w.convolver w.input) w.scale

/-- Lines 403-408: the filter installed in the engine and the engine, after the
filter update. -/
def Convolver.Process.update (E : APFConvolver σ) (w : Convolver σ) : Option FilterRef × σ :=
  match w.filter with
  | some f =>
    if some f ≠ w.convfilter then (some f, E.set_filter (Process.first E w).2 f)
    else (w.convfilter, (Process.first E w).2)
  | none => (w.convfilter, (Process.first E w).2)

/-- Lines 398-424: the delay memory after the block has been copied in at the
write position and, if the queues are not empty, crossfaded with the second
convolution; and the engine afterwards. -/
def Convolver.Process.filtered (E : APFConvolver σ) (w : Convolver σ) : (Nat → ℚ) × σ :=
  let dest := w.delaypos
  let delay0 : Nat → ℚ := fun p =>
    if dest ≤ p ∧ p < dest + w.blocksize then (Process.first E w).1 (p - dest) else w.delay p
  let c := (Process.update E w).2
  if !E.queues_empty c then
    let r2 := E.convolve (E.rotate_queues c) w.scale
    (fun p =>
      if dest ≤ p ∧ p < dest + w.blocksize then
        let b := w.rampB (p - dest)
        let a := 1 - b
        delay0 p * a + b * r2.1 (p - dest)
      else delay0 p,
     r2.2)
  else (delay0, c)

/-- Lines 427-445: the read position `fpos` of sample `i` as a real number, the
expression `a * fpos1 + b * fpos2` of the code evaluated without rounding. -/
def Convolver.Process.fpos (w : Convolver σ) (i : Nat) : ℚ :=
  let delaylen := w.blocksize * 2
  let pos1 := w.delaypos + delaylen
  let delay2 := w.outputdelay
  let fpos1 := (pos1 : ℚ) - w.delay1
  let fpos2 := ((pos1 + w.blocksize : Nat) : ℚ) - delay2
  let b := w.rampB i
  let a := 1 - b
  a * fpos1 + b * fpos2

/-- Lines 427-445: the read position `fpos` of sample `i` as the code computes it,
every operation on `double` rounded (`roundDouble`); the conversions of `i`,
`blocksize`, `pos1` and `pos1 + blocksize` to `double` are exact.  `fpos` above
is the same expression without rounding. -/
def Convolver.Process.fposDouble (w : Convolver σ) (i : Nat) : ℚ :=
  let delaylen := w.blocksize * 2
  let pos1 := w.delaypos + delaylen
  let delay2 := w.outputdelay
  let fpos1 := roundDouble ((pos1 : ℚ) - w.delay1)
  let fpos2 := roundDouble (((pos1 + w.blocksize : Nat) : ℚ) - delay2)
  let b := roundDouble ((i : ℚ) / (w.blocksize : ℚ))
  let a := roundDouble (1 - b)
  roundDouble (roundDouble (a * fpos1) + roundDouble (b * fpos2))

/-- One pass of the loop of `Convolver::Process` (lines 393-453), run by the
worker thread between the start signal and the done signal.
`FractionalSample buffer channel channels length pos` is the external
interpolator. -/
def Convolver.Process.cycle (E : APFConvolver σ)
    (FractionalSample : (Nat → ℚ) → Nat → Nat → Nat → ℚ → ℚ) (w : Convolver σ) :
    Convolver σ :=
  let delaylen := w.blocksize * 2
  let delay := (Process.filtered E w).1
  { w with
    convolver := (Process.filtered E w).2
    convfilter := (Process.update E w).1
    delay := delay
    output := fun i =>
      if i < w.blocksize then
        if w.hqproc then FractionalSample delay 0 1 delaylen (Process.fposDouble w i)
        else delay (truncUInt (Process.fposDouble w i) % delaylen)
      else w.output i
    delaypos := (w.delaypos + w.blocksize) % delaylen
    delay1 := w.outputdelay }

/-! ## ConvolverManager::Convolve -/

/-- Whether the thread of a worker answers a start signal: the thread was
created (`thread` is not 0) and has not been told to quit. -/
def Convolver.responds (w : Convolver σ) : Bool :=
  decide (w.thread ≠ 0) && !w.quitthread

/-- What happens to a worker once `StartConvolution` has signalled it: its
thread, if it answers, runs one pass of `Process` and signals done; a worker
without thread stays as it is and never signals done. -/
def Convolver.threadPass (E : APFConvolver σ)
    (FractionalSample : (Nat → ℚ) → Nat → Nat → Nat → ℚ → ℚ) (w : Convolver σ) :
    Convolver σ :=
  if w.responds then Convolver.Process.cycle E FractionalSample w else w

/-- The first loop of `Convolve` (lines 233-236) from worker `i` on: each worker is
given its input and signalled, and its thread, if any, runs one pass of
`Process`. -/
def ConvolverManager.Convolve.start (E : APFConvolver σ)
    (FractionalSample : (Nat → ℚ) → Nat → Nat → Nat → ℚ → ℚ) (hqproc : Bool)
    (input : Nat → ℚ) (inputchannels outputchannels : Nat) :
    Nat → List (Convolver σ) → List (Convolver σ)
  | _, [] => []
  | i, w :: ws =>
    Convolver.threadPass E FractionalSample
        (w.StartConvolution input (i / outputchannels) inputchannels hqproc)
      :: Convolve.start E FractionalSample hqproc input inputchannels outputchannels (i + 1) ws

/-- The second loop of `Convolve` (lines 239-242) from worker `i` on.  In
`EndConvolution` the manager first waits for the done signal of the worker; when
the worker has no thread that answers, the wait never returns and the buffer
stays as the loop has left it so far. -/
def ConvolverManager.Convolve.finish (outputchannels : Nat) :
    Nat → List (Convolver σ) → (Nat → ℚ) → (Nat → ℚ)
  | _, [], output => output
  | i, w :: ws, output =>
    if w.responds then
      Convolve.finish outputchannels (i + 1) ws
        (w.EndConvolution output (i % outputchannels) outputchannels)
    else output

/-- The method `ConvolverManager::Convolve(input, output, inputchannels, outputchannels)`:
the manager (its workers) and the output buffer when the call returns or, when
the manager waits for a done signal that never comes, at that wait. -/
def ConvolverManager.Convolve (E : APFConvolver σ)
    (FractionalSample : (Nat → ℚ) → Nat → Nat → Nat → ℚ → ℚ) (m : ConvolverManager σ)
    (input output : Nat → ℚ) (inputchannels outputchannels : Nat) :
    ConvolverManager σ × (Nat → ℚ) :=
  let ws := Convolve.start E FractionalSample m.hqproc input inputchannels outputchannels 0
    m.convolvers
  ({ m with convolvers := ws }, Convolve.finish outputchannels 0 ws output)

/-- What the manager does to one worker for one block: an optional
`SetResponse` before the block, then the arguments of `StartConvolution`. -/
structure BlockCall where
  response : Option (FilterRef × ℚ)
  mem : Nat → ℚ
  input : Nat
  inputchannels : Nat
  hqproc : Bool

/-- The worker as released for a block: after the optional `SetResponse` and
after `StartConvolution`. -/
def Convolver.released (w : Convolver σ) (c : BlockCall) : Convolver σ :=
  let w1 := match c.response with
    | some (f, d) => w.SetResponse f d
    | none => w
  w1.StartConvolution c.mem c.input c.inputchannels c.hqproc

/-- The worker after `k` blocks, block `j` being driven by `calls j`. -/
def Convolver.afterBlocks (E : APFConvolver σ)
    (FractionalSample : (Nat → ℚ) → Nat → Nat → Nat → ℚ → ℚ) (w0 : Convolver σ)
    (calls : Nat → BlockCall) : Nat → Convolver σ
  | 0 => w0
  | k + 1 =>
    Convolver.Process.cycle E FractionalSample
      ((Convolver.afterBlocks E FractionalSample w0 calls k).released (calls k))

/-- The worker as released for block `k`. -/
def Convolver.atBlock (E : APFConvolver σ)
    (FractionalSample : (Nat → ℚ) → Nat → Nat → Nat → ℚ → ℚ) (w0 : Convolver σ)
    (calls : Nat → BlockCall) (k : Nat) : Convolver σ :=
  (Convolver.afterBlocks E FractionalSample w0 calls k).released (calls k)

/-- Sample `i` of the filtered (post-crossfade) block `k`: what block `k` leaves
in the delay memory at its write position. -/
def Convolver.filteredBlock (E : APFConvolver σ)
    (FractionalSample : (Nat → ℚ) → Nat → Nat → Nat → ℚ → ℚ) (w0 : Convolver σ)
    (calls : Nat → BlockCall) (k i : Nat) : ℚ :=
  let w := Convolver.atBlock E FractionalSample w0 calls k
  (Convolver.Process.filtered E w).1 (w.delaypos + i)

/-- The filtered signal as one stream: position `s` is sample `s % blocksize` of
block `s / blocksize`. -/
def Convolver.filteredStream (E : APFConvolver σ)
    (FractionalSample : (Nat → ℚ) → Nat → Nat → Nat → ℚ → ℚ) (w0 : Convolver σ)
    (calls : Nat → BlockCall) (s : Nat) : ℚ :=
  Convolver.filteredBlock E FractionalSample w0 calls (s / w0.blocksize) (s % w0.blocksize)

/-! ## Concrete inputs -/

/-- A test engine over the state "last block added": it convolves with the unit
impulse, so the result is the last input block times `scale`. -/
def unitEngine : APFConvolver (Nat → ℚ) :=
  { create := fun _ _ => fun _ => 0
    add_block := fun _ b => b
    convolve := fun s scale => (fun i => scale * s i, s)
    set_filter := fun s _ => s
    queues_empty := fun _ => true
    rotate_queues := fun s => s }

/-- A test interpolator: the sample at the truncated position. -/
def nearestSample (buf : Nat → ℚ) (_channel _channels length : Nat) (pos : ℚ) : ℚ :=
  buf (truncUInt pos % length)

/-- A two-channel impulse response file of 256 frames. -/
def demoIR : IRFile :=
  { frames := 256, channels := 2, samples := fun p => if p < 2 then 1 else 0 }

/-- A manager built from `demoIR` and the delays 10 and 2 at block size 64, with
one worker. -/
def demoManager : ConvolverManager (Nat → ℚ) :=
  (ConvolverManager.new lp64 (some demoIR) (some [10, 2]) 64).SetConvolverCount unitEngine
    (fun i => some (i + 1)) 1

/-- A one-channel file of `2 ^ 32` frames. -/
def longIR : IRFile :=
  { frames := 2 ^ 32, channels := 1, samples := fun _ => 0 }

/-- A block call that sets filter 0 with delay 2 and feeds the block
1, 2, 3, ... in low-quality mode. -/
def demoCall : BlockCall :=
  { response := some (0, 2), mem := fun p => (p : ℚ) + 1, input := 0, inputchannels := 1,
    hqproc := false }

/-- A worker of block size 9, fresh from its constructor. -/
def nineWorker : Convolver (Nat → ℚ) :=
  Convolver.new (fun i => some (i + 1)) 0 9 (fun _ => 0) 1

/-- Block `k` of a run at block size 9: filter 0 with delay 8 is assigned, the
block carries the samples `100 * (k + 1) + 1 + p` for `p = 0, 1, ...`, and the
mode is low quality. -/
def nineCall (k : Nat) : BlockCall :=
  { response := some (0, 8), mem := fun p => 100 * ((k : ℚ) + 1) + 1 + (p : ℚ), input := 0,
    inputchannels := 1, hqproc := false }

/-! ## Named parts of the worker pass -/

/-- Line 429: `fpos1 = (double)pos1 - delay1`, the read position at the previous
delay, with `pos1 = delaypos + delaylen`. -/
def Convolver.Process.fpos1 (w : Convolver σ) : ℚ :=
  ((w.delaypos + w.blocksize * 2 : Nat) : ℚ) - w.delay1

/-- Line 430: `fpos2 = (double)(pos1 + blocksize) - delay2`, the read position a
block later at the target delay `delay2 = outputdelay`. -/
def Convolver.Process.fpos2 (w : Convolver σ) : ℚ :=
  ((w.delaypos + w.blocksize * 2 + w.blocksize : Nat) : ℚ) - w.outputdelay

/-- Lines 413-416: the result of the second convolution, after the queue
rotation, and the engine after it. -/
def Convolver.Process.second (E : APFConvolver σ) (w : Convolver σ) : (Nat → ℚ) × σ :=
  E.convolve (E.rotate_queues (Process.update E w).2) w.scale

/-- Line 447: the index into the delay memory that low-quality mode uses for
sample `i`, `(uint_t)fpos % delaylen`. -/
def Convolver.Process.lowQualityIndex (w : Convolver σ) (i : Nat) : Nat :=
  truncUInt (Process.fposDouble w i) % (w.blocksize * 2)

/-- A worker of block size 4, fresh from its constructor. -/
def demoWorker : Convolver (Nat → ℚ) :=
  Convolver.new (fun i => some (i + 1)) 0 4 (fun _ => 0) 1

/-- The worker `demoWorker` as released for its first block by `demoCall`. -/
def demoReleased : Convolver (Nat → ℚ) := demoWorker.released demoCall

/-- A test engine whose queues are never empty: the result is the last input
block times `scale`, and a rotation doubles the stored block. -/
def fadeEngine : APFConvolver (Nat → ℚ) :=
  { create := fun _ _ => fun _ => 0
    add_block := fun _ b => b
    convolve := fun s scale => (fun i => scale * s i, s)
    set_filter := fun s _ => s
    queues_empty := fun _ => false
    rotate_queues := fun s => fun i => 2 * s i }

/-! ## The engine with a log of its calls -/

/-- A call of the worker thread that changes its convolution engine. -/
inductive EngineCall where
  | add_block
  | convolve
  | set_filter (f : FilterRef)
  | rotate_queues
deriving DecidableEq

/-- The engine `E` together with the log of the calls made to it, oldest first.
The query `queues_empty` changes nothing and is not logged. -/
def APFConvolver.logged (E : APFConvolver σ) : APFConvolver (σ × List EngineCall) :=
  { create := fun b p => (E.create b p, [])
    add_block := fun s blk => (E.add_block s.1 blk, s.2 ++ [EngineCall.add_block])
    convolve := fun s scale =>
      ((E.convolve s.1 scale).1, ((E.convolve s.1 scale).2, s.2 ++ [EngineCall.convolve]))
    set_filter := fun s f => (E.set_filter s.1 f, s.2 ++ [EngineCall.set_filter f])
    queues_empty := fun s => E.queues_empty s.1
    rotate_queues := fun s => (E.rotate_queues s.1, s.2 ++ [EngineCall.rotate_queues]) }

/-- The filter installed in an engine with the given log: the argument of the
last `set_filter`, none if there was no such call. -/
def installedFilter (log : List EngineCall) : Option FilterRef :=
  log.foldl
    (fun acc c =>
      match c with
      | EngineCall.set_filter f => some f
      | _ => acc)
    none

/-- A worker over the logged `unitEngine`, with filter 3 assigned and no filter
installed yet. -/
def demoLogged : Convolver ((Nat → ℚ) × List EngineCall) :=
  (Convolver.new (fun i => some (i + 1)) 0 4 ((fun _ => 0), []) 1).SetResponse 3 0

/-! ## Buffer indices of Convolve -/

/-- The index of `input` that worker `i` reads for its sample `j`: in
`StartConvolution`, `_input[j * inputchannels]` with `_input = input + i / outputchannels`. -/
def ConvolverManager.Convolve.readIndex (inputchannels outputchannels i j : Nat) : Nat :=
  i / outputchannels + j * inputchannels

/-- The index of `output` that worker `i` writes for its sample `j`: in
`EndConvolution`, `_output[j * outputchannels]` with `_output = output + i % outputchannels`. -/
def ConvolverManager.Convolve.writeIndex (outputchannels i j : Nat) : Nat :=
  i % outputchannels + j * outputchannels

/-! ## LoadedVersions (src/LoadedVersions.cpp) -/

/-- The record `LoadedVersions::VERSION`: a name and a version string
(`std::string`, compared by content). -/
structure VERSION where
  name : String
  version : String
deriving DecidableEq

/-- State of `class LoadedVersions`: the vector `versions`. -/
structure LoadedVersions where
  versions : List VERSION

/-- The method `LoadedVersions::Register(name, version)`: the returned index and the
registry afterwards. -/
def LoadedVersions.Register (r : LoadedVersions) (name version : String) :
    Nat × LoadedVersions :=
  let ver : VERSION := { name := name, version := version }
  let index := r.versions.length
  (index, { versions := r.versions ++ [ver] })

/-- The search loop of `GetVersion` over the entries not yet visited. -/
def LoadedVersions.GetVersion.loop (name : String) : List VERSION → String
  | [] => ""
  | v :: rest => if v.name = name then v.version else GetVersion.loop name rest

/-- The method `LoadedVersions::GetVersion(name)`. -/
def LoadedVersions.GetVersion (r : LoadedVersions) (name : String) : String :=
  GetVersion.loop name r.versions

/-- The registry after a sequence of `Register(name, version)` calls on the empty
registry. -/
def LoadedVersions.afterCalls (calls : List (String × String)) : LoadedVersions :=
  calls.foldl (fun r c => (r.Register c.1 c.2).2) { versions := [] }

/-! ## SOFA (aplibs-dsp/SOFA.cpp) -/

/-- A NetCDF dimension: its name and its size. -/
structure SofaDim where
  name : String
  size : Nat
deriving DecidableEq

/-- A NetCDF variable, as far as the index computations use it: its dimensions. -/
structure SofaVar where
  dims : List SofaDim
deriving DecidableEq

/-- An opened SOFA file: the sizes of the dimensions `M`, `R`, `E`, `N`
(`sofa_dims`) and the variables by name (`none` is the null variable). -/
structure SOFA where
  M : Nat
  R : Nat
  E : Nat
  N : Nat
  vars : String → Option SofaVar

/-- The method `SOFA::get_var(var_name)`. -/
def SOFA.get_var (s : SOFA) (var_name : String) : Option SofaVar := s.vars var_name

/-- The method `SOFA::get_ir(ir_buffer, indexM, indexR, indexE)`: `none` when it returns
false without reading, else the `start` and `count` vectors it passes to
`get_ir_data`, which reads that block and returns true.  A write to a vector
beyond its size is left out. -/
def SOFA.get_ir (s : SOFA) (indexM indexR indexE : Nat) : Option (List Nat × List Nat) :=
  match s.get_var "Data.IR" with
  | none => none
  | some ir_data =>
    let n_dims := ir_data.dims.length
    let start := List.replicate n_dims 0
    let count := List.replicate n_dims 1
    if indexM ≥ s.M ∨ indexR ≥ s.R ∨ indexE ≥ s.E then none
    else
      let start1 := (start.set 0 indexM).set 1 indexR
      let start2 := if n_dims > 3 then start1.set 2 indexE else start1
      some (start2, count.set (n_dims - 1) s.N)

/-- The method `SOFA::get_delays(delays, indexR, indexE)`: `none` when it returns false
without reading, else the `start` and `count` vectors it passes to
`get_delay_data`, which reads that block and returns true.  A write to a vector
beyond its size is left out. -/
def SOFA.get_delays (s : SOFA) (indexR indexE : Nat) : Option (List Nat × List Nat) :=
  match s.get_var "Data.Delay" with
  | none => none
  | some delay_data =>
    let n_dims := delay_data.dims.length
    let start := List.replicate n_dims 0
    let count := List.replicate n_dims 1
    if indexR ≥ s.R ∨ indexE ≥ s.E then none
    else
      let start1 := start.set 1 indexR
      let start2 := if n_dims > 2 then start1.set 1 indexE else start1
      let count1 :=
        match delay_data.dims.head? with
        | some d => if d.name = "M" then count.set 0 s.M else count
        | none => count
      some (start2, count1)

/-- A SOFA file in the MultiSpeakerBRIR layout: 3 measurements, 2 receivers,
2 emitters, 8 samples; `Data.IR` has the dimensions M, R, E, N and `Data.Delay`
the dimensions M, R, E. -/
def demoSofa : SOFA :=
  { M := 3, R := 2, E := 2, N := 8
    vars := fun name =>
      if name = "Data.IR" then
        some { dims := [⟨"M", 3⟩, ⟨"R", 2⟩, ⟨"E", 2⟩, ⟨"N", 8⟩] }
      else if name = "Data.Delay" then
        some { dims := [⟨"M", 3⟩, ⟨"R", 2⟩, ⟨"E", 2⟩] }
      else none }

/-! ## Concrete inputs of Convolve -/

/-- C1: SelectIR returns true exactly when the worker index is below the pool
size and the IR index is below the number of loaded filters. -/
theorem SelectIR_true_iff (m : ConvolverManager σ) (convolver ir : Nat) :
    (m.SelectIR convolver ir).1 = true ↔
      (convolver < m.convolvers.length ∧ ir < m.filters.length) := by
  unfold ConvolverManager.SelectIR
  by_cases h1 : convolver < m.convolvers.length
  · by_cases h2 : ir < m.filters.length <;> simp [h1, h2]
  · simp [h1]

/-- The worker list after a successful `SelectIR`. -/
theorem SelectIR_convolvers (m : ConvolverManager σ) (convolver ir : Nat)
    (hc : convolver < m.convolvers.length) (hi : ir < m.filters.length) :
    (m.SelectIR convolver ir).2 =
      { m with convolvers :=
          m.convolvers.set convolver (m.convolvers[convolver].SetResponse ir (m.irDelay ir)) } := by
  simp [ConvolverManager.SelectIR, hc, hi]

theorem SetResponse_filter (w : Convolver σ) (f : FilterRef) (d : ℚ) :
    (w.SetResponse f d).filter = some f := by
  unfold Convolver.SetResponse
  by_cases h : some f = w.filter
  · simp [h]
  · simp [h]

theorem SetResponse_outputdelay (w : Convolver σ) (f : FilterRef) (d : ℚ) :
    (w.SetResponse f d).outputdelay = d := by
  simp [Convolver.SetResponse]

theorem SetResponse_blocksize (w : Convolver σ) (f : FilterRef) (d : ℚ) :
    (w.SetResponse f d).blocksize = w.blocksize := by
  unfold Convolver.SetResponse
  by_cases h : some f = w.filter
  · simp [h]
  · simp [h]

theorem SetResponse_delaypos (w : Convolver σ) (f : FilterRef) (d : ℚ) :
    (w.SetResponse f d).delaypos = w.delaypos := by
  unfold Convolver.SetResponse
  by_cases h : some f = w.filter
  · simp [h]
  · simp [h]

theorem SetResponse_delay (w : Convolver σ) (f : FilterRef) (d : ℚ) :
    (w.SetResponse f d).delay = w.delay := by
  unfold Convolver.SetResponse
  by_cases h : some f = w.filter
  · simp [h]
  · simp [h]

theorem SetResponse_delay1 (w : Convolver σ) (f : FilterRef) (d : ℚ) :
    (w.SetResponse f d).delay1 = w.delay1 := by
  unfold Convolver.SetResponse
  by_cases h : some f = w.filter
  · simp [h]
  · simp [h]

/-- C2: after SelectIR on an in-range pair the named worker points at
`filters[ir]` and has target delay `(irdelays[ir] - mindelay) * delayscale` when a
delay was loaded for `ir` and 0 otherwise (so 0 when the delay table is empty);
the filter bank is as before and every other worker is unchanged. -/
theorem SelectIR_assigns (m : ConvolverManager σ) (convolver ir : Nat)
    (hc : convolver < m.convolvers.length) (hi : ir < m.filters.length) :
    (∃ w, (m.SelectIR convolver ir).2.convolvers[convolver]? = some w ∧
        w.filter = some ir ∧
        (m.SelectIR convolver ir).2.filterAt ir = some m.filters[ir] ∧
        w.outputdelay =
          (if h : ir < m.irdelays.length then (m.irdelays[ir] - m.mindelay) * m.delayscale
           else 0) ∧
        (m.irdelays = [] → w.outputdelay = 0)) ∧
      ∀ j, j ≠ convolver →
        (m.SelectIR convolver ir).2.convolvers[j]? = m.convolvers[j]? := by
  rw [SelectIR_convolvers m convolver ir hc hi]
  refine ⟨⟨m.convolvers[convolver].SetResponse ir (m.irDelay ir), ?_, ?_, ?_, ?_, ?_⟩, ?_⟩
  · simp [hc]
  · exact SetResponse_filter _ _ _
  · simp [ConvolverManager.filterAt, hi]
  · rw [SetResponse_outputdelay]; rfl
  · intro he
    rw [SetResponse_outputdelay]
    simp [ConvolverManager.irDelay, he]
  · intro j hj
    simp [List.getElem?_set, Ne.symm hj]

/-- C3: when SelectIR returns false the manager state is exactly as before. -/
theorem SelectIR_false_unchanged (m : ConvolverManager σ) (convolver ir : Nat)
    (h : (m.SelectIR convolver ir).1 = false) : (m.SelectIR convolver ir).2 = m := by
  unfold ConvolverManager.SelectIR at h ⊢
  by_cases h1 : convolver < m.convolvers.length
  · by_cases h2 : ir < m.filters.length
    · simp [h1, h2] at h
    · simp [h1, h2]
  · simp [h1]

/-- Witness of C2 on `demoManager`: worker 0, IR 1. -/
theorem SelectIR_assigns_witness :
    (0 < demoManager.convolvers.length ∧ 1 < demoManager.filters.length) ∧
    ((∃ w, (demoManager.SelectIR 0 1).2.convolvers[0]? = some w ∧
        w.filter = some 1 ∧
        (demoManager.SelectIR 0 1).2.filterAt 1 = demoManager.filters[1]? ∧
        w.outputdelay =
          (if h : 1 < demoManager.irdelays.length then
            (demoManager.irdelays[1] - demoManager.mindelay) * demoManager.delayscale
           else 0) ∧
        (demoManager.irdelays = [] → w.outputdelay = 0)) ∧
      ∀ j, j ≠ 0 → (demoManager.SelectIR 0 1).2.convolvers[j]? = demoManager.convolvers[j]?) := by
  have hc : 0 < demoManager.convolvers.length := by decide
  have hi : 1 < demoManager.filters.length := by decide
  refine ⟨⟨hc, hi⟩, ?_⟩
  have h := SelectIR_assigns demoManager 0 1 hc hi
  simpa [List.getElem?_eq_getElem hi] using h

/-- Witness of C3 on `demoManager`: worker index 5 is out of range. -/
theorem SelectIR_false_unchanged_witness :
    (demoManager.SelectIR 5 0).1 = false ∧ (demoManager.SelectIR 5 0).2 = demoManager :=
  ⟨by decide, SelectIR_false_unchanged demoManager 5 0 (by decide)⟩

/-! ## Theorems: LoadIRDelays -/

theorem LoadIRDelays_loop_fst (rs : List ℚ) (st : List ℚ × ℚ × Bool) :
    (ConvolverManager.LoadIRDelays.loop rs st).1 = st.1 ++ rs := by
  induction rs generalizing st with
  | nil => simp [ConvolverManager.LoadIRDelays.loop]
  | cons d rest ih =>
    obtain ⟨acc, mn, init⟩ := st
    simp [ConvolverManager.LoadIRDelays.loop, ih]

/-- Once a reading has been seen, the loop keeps the least of `mindelay` and the
readings that follow. -/
theorem LoadIRDelays_loop_min (rs : List ℚ) (acc : List ℚ) (mn : ℚ) :
    (ConvolverManager.LoadIRDelays.loop rs (acc, mn, false)).2.1 ≤ mn ∧
    (∀ x ∈ rs, (ConvolverManager.LoadIRDelays.loop rs (acc, mn, false)).2.1 ≤ x) ∧
    ((ConvolverManager.LoadIRDelays.loop rs (acc, mn, false)).2.1 = mn ∨
      (ConvolverManager.LoadIRDelays.loop rs (acc, mn, false)).2.1 ∈ rs) := by
  induction rs generalizing acc mn with
  | nil => simp [ConvolverManager.LoadIRDelays.loop]
  | cons d rest ih =>
    simp only [ConvolverManager.LoadIRDelays.loop, Bool.false_or]
    by_cases h : d < mn
    · obtain ⟨h1, h2, h3⟩ := ih (acc ++ [d]) d
      simp only [h, decide_True, if_true]
      refine ⟨le_trans h1 (le_of_lt h), ?_, ?_⟩
      · intro x hx
        rcases List.mem_cons.mp hx with rfl | hx
        · exact h1
        · exact h2 x hx
      · rcases h3 with h3 | h3
        · right; rw [h3]; exact List.mem_cons_self _ _
        · right; exact List.mem_cons_of_mem _ h3
    · obtain ⟨h1, h2, h3⟩ := ih (acc ++ [d]) mn
      simp only [h, decide_False, if_false]
      refine ⟨h1, ?_, ?_⟩
      · intro x hx
        rcases List.mem_cons.mp hx with rfl | hx
        · exact le_trans h1 (not_lt.mp h)
        · exact h2 x hx
      · rcases h3 with h3 | h3
        · left; exact h3
        · right; exact List.mem_cons_of_mem _ h3

/-- After loading a non-empty sequence, `mindelay` is its least element. -/
theorem LoadIRDelays_mindelay (m : ConvolverManager σ) (raw : List ℚ) (hne : raw ≠ []) :
    (m.LoadIRDelays (some raw)).irdelays = raw ∧
    (m.LoadIRDelays (some raw)).mindelay ∈ raw ∧
    ∀ x ∈ raw, (m.LoadIRDelays (some raw)).mindelay ≤ x := by
  cases raw with
  | nil => exact absurd rfl hne
  | cons d rest =>
    obtain ⟨h1, h2, h3⟩ := LoadIRDelays_loop_min rest ([] ++ [d]) d
    refine ⟨?_, ?_, ?_⟩
    · simp [ConvolverManager.LoadIRDelays, LoadIRDelays_loop_fst]
    · simp only [ConvolverManager.LoadIRDelays, ConvolverManager.LoadIRDelays.loop,
        Bool.true_or, if_true]
      rcases h3 with h3 | h3
      · rw [h3]; exact List.mem_cons_self _ _
      · exact List.mem_cons_of_mem _ h3
    · intro x hx
      simp only [ConvolverManager.LoadIRDelays, ConvolverManager.LoadIRDelays.loop,
        Bool.true_or, if_true]
      rcases List.mem_cons.mp hx with rfl | hx
      · exact h1
      · exact h2 x hx

theorem LoadIRDelays_delayscale (m : ConvolverManager σ) (file : Option (List ℚ)) :
    (m.LoadIRDelays file).delayscale = m.delayscale := by
  cases file <;> rfl

theorem LoadIRDelays_convolvers (m : ConvolverManager σ) (file : Option (List ℚ)) :
    (m.LoadIRDelays file).convolvers = m.convolvers := by
  cases file <;> rfl

theorem LoadIRDelays_filters (m : ConvolverManager σ) (file : Option (List ℚ)) :
    (m.LoadIRDelays file).filters = m.filters := by
  cases file <;> rfl

/-- C4: for a non-empty sequence of raw delays and `delayscale = 1`, `mindelay`
is the minimum of the sequence; the delay SelectIR computes for index `k` is
`raw[k] - min(raw)` and is what SelectIR hands to the worker; every such delay is
at least 0, and one of them is exactly 0. -/
theorem LoadIRDelays_normalized (m : ConvolverManager σ) (raw : List ℚ) (hne : raw ≠ [])
    (hscale : m.delayscale = 1) :
    (m.LoadIRDelays (some raw)).irdelays = raw ∧
    raw.minimum = ((m.LoadIRDelays (some raw)).mindelay : WithTop ℚ) ∧
    (∀ k (hk : k < raw.length),
      (m.LoadIRDelays (some raw)).irDelay k = raw[k] - (m.LoadIRDelays (some raw)).mindelay ∧
      0 ≤ (m.LoadIRDelays (some raw)).irDelay k) ∧
    (∃ k, k < raw.length ∧ (m.LoadIRDelays (some raw)).irDelay k = 0) ∧
    (∀ c k (_ : c < m.convolvers.length) (_ : k < m.filters.length) (hk : k < raw.length),
      ∃ w, ((m.LoadIRDelays (some raw)).SelectIR c k).2.convolvers[c]? = some w ∧
        w.outputdelay = raw[k] - (m.LoadIRDelays (some raw)).mindelay) := by
  obtain ⟨h1, h2, h3⟩ := LoadIRDelays_mindelay m raw hne
  have hs : (m.LoadIRDelays (some raw)).delayscale = 1 := by
    rw [LoadIRDelays_delayscale, hscale]
  have key : ∀ k (hk : k < raw.length),
      (m.LoadIRDelays (some raw)).irDelay k =
        raw[k] - (m.LoadIRDelays (some raw)).mindelay := by
    intro k hk
    have hk2 : k < (m.LoadIRDelays (some raw)).irdelays.length := by rw [h1]; exact hk
    simp only [ConvolverManager.irDelay, hk2, dif_pos, hs, mul_one]
    simp only [h1]
  refine ⟨h1, ?_, ?_, ?_, ?_⟩
  · exact (List.minimum_eq_coe_iff).mpr ⟨h2, h3⟩
  · intro k hk
    refine ⟨key k hk, ?_⟩
    rw [key k hk]
    exact sub_nonneg.mpr (h3 _ (List.getElem_mem _))
  · obtain ⟨k, hk, hkeq⟩ := List.getElem_of_mem h2
    exact ⟨k, hk, by rw [key k hk, hkeq, sub_self]⟩
  · intro c k hc hf hk
    have hc2 : c < (m.LoadIRDelays (some raw)).convolvers.length := by
      rw [LoadIRDelays_convolvers]; exact hc
    have hf2 : k < (m.LoadIRDelays (some raw)).filters.length := by
      rw [LoadIRDelays_filters]; exact hf
    rw [SelectIR_convolvers _ c k hc2 hf2]
    refine ⟨(m.LoadIRDelays (some raw)).convolvers[c].SetResponse k
      ((m.LoadIRDelays (some raw)).irDelay k), by simp [hc2], ?_⟩
    rw [SetResponse_outputdelay, key k hk]

/-- Witness of C4: the raw delays 10 and 2 give `mindelay = 2` and the
normalized delays 8 and 0. -/
theorem LoadIRDelays_normalized_witness :
    (([10, 2] : List ℚ) ≠ [] ∧ demoManager.delayscale = 1) ∧
    (demoManager.LoadIRDelays (some [10, 2])).mindelay = 2 ∧
    (demoManager.LoadIRDelays (some [10, 2])).irDelay 0 = 8 ∧
    (demoManager.LoadIRDelays (some [10, 2])).irDelay 1 = 0 ∧
    (∃ k, k < ([10, 2] : List ℚ).length ∧
      (demoManager.LoadIRDelays (some [10, 2])).irDelay k = 0) := by
  have hne : ([10, 2] : List ℚ) ≠ [] := by simp
  have hs : demoManager.delayscale = 1 := rfl
  have h := LoadIRDelays_normalized demoManager [10, 2] hne hs
  have hmin : (demoManager.LoadIRDelays (some [10, 2])).mindelay = 2 := by
    norm_num [ConvolverManager.LoadIRDelays, ConvolverManager.LoadIRDelays.loop]
  refine ⟨⟨hne, hs⟩, hmin, ?_, ?_, h.2.2.2.1⟩
  · rw [(h.2.2.1 0 (by simp)).1, hmin]; norm_num
  · rw [(h.2.2.1 1 (by simp)).1, hmin]; norm_num

/-! ## Theorems: LoadIRs -/

/-- The `ulong_t` expression `len + blocksize - 1` when it does not wrap. -/
theorem LoadIRs_sum_nowrap (N len B : Nat) (hB : 0 < B) (hno : len + B - 1 < N) :
    ((len + B) % N + N - 1) % N = len + B - 1 := by
  by_cases h : len + B < N
  · rw [Nat.mod_eq_of_lt h]
    have e : len + B + N - 1 = (len + B - 1) + N := by omega
    rw [e, Nat.add_mod_right, Nat.mod_eq_of_lt hno]
  · have e : len + B = N := by omega
    rw [e, Nat.mod_self, Nat.zero_add]
    have hN : N - 1 < N := by omega
    rw [Nat.mod_eq_of_lt hN]

theorem LoadIRs_partitions_eq (W : IntWidths) (len B : Nat) (hB : 0 < B)
    (hno : len + B - 1 < 2 ^ W.ulong) (hfit : (len + B - 1) / B < 2 ^ W.uint) :
    ConvolverManager.LoadIRs.partitions W len B = (len + B - 1) / B := by
  unfold ConvolverManager.LoadIRs.partitions
  rw [LoadIRs_sum_nowrap _ len B hB hno, Nat.mod_eq_of_lt hfit]

/-- The quotient `(len + B - 1) / B` is the least `p` with `len ≤ B * p`. -/
theorem ceilDiv_spec (len B : Nat) (hB : 0 < B) :
    len ≤ B * ((len + B - 1) / B) ∧ (∀ q, len ≤ B * q → (len + B - 1) / B ≤ q) ∧
    B * ((len + B - 1) / B) - len < B := by
  have h1 := Nat.div_add_mod (len + B - 1) B
  have h2 := Nat.mod_lt (len + B - 1) hB
  refine ⟨by omega, ?_, by omega⟩
  intro q hq
  have : (len + B - 1) / B < q + 1 := by
    rw [Nat.div_lt_iff_lt_mul hB]
    have e : (q + 1) * B = B * q + B := by ring
    omega
  omega

/-- Counterexample to C5 as stated, on LP64 (`ulong_t` 64 bits, `uint_t` 32 bits):
for an IR of `2 ^ 32` frames at block size 1 the sum `len + blocksize - 1` does
not overflow, yet the cast to `uint_t` leaves `partitions = 0`, which is not
`(len + blocksize - 1) / blocksize` and does not cover the IR. -/
theorem LoadIRs_partitions_truncated :
    (0 < 1 ∧ 2 ^ 32 + 1 - 1 < 2 ^ lp64.ulong) ∧
    ((ConvolverManager.new lp64 (some longIR) none 1 : ConvolverManager Unit).partitions = 0) ∧
    ((ConvolverManager.new lp64 (some longIR) none 1 : ConvolverManager Unit).partitions
      ≠ (2 ^ 32 + 1 - 1) / 1) ∧
    ¬ (2 ^ 32 ≤
      1 * (ConvolverManager.new lp64 (some longIR) none 1 : ConvolverManager Unit).partitions) := by
  have h : (ConvolverManager.new lp64 (some longIR) none 1 : ConvolverManager Unit).partitions
      = 0 := by decide
  rw [h]
  decide

/-- C5 (amended): for `blocksize > 0`, when `len + blocksize - 1` does not
overflow `ulong_t` and `blocksize * ceil(len / blocksize)` fits `uint_t`, LoadIRs
sets `partitions = (len + blocksize - 1) / blocksize = ceil(len / blocksize)`, the
least `p` with `blocksize * p ≥ len`; the response buffer has
`blocksize * partitions` samples, which holds the IR and wastes fewer than
`blocksize` samples. -/
theorem LoadIRs_partitions_ceil (W : IntWidths) (m : ConvolverManager σ) (f : IRFile)
    (hB : 0 < m.blocksize) (hno : f.frames + m.blocksize - 1 < 2 ^ W.ulong)
    (hfit : m.blocksize * ((f.frames + m.blocksize - 1) / m.blocksize) < 2 ^ W.uint) :
    (m.LoadIRs W (some f)).partitions = (f.frames + m.blocksize - 1) / m.blocksize ∧
    (m.LoadIRs W (some f)).partitions = ⌈(f.frames : ℚ) / (m.blocksize : ℚ)⌉₊ ∧
    f.frames ≤ m.blocksize * (m.LoadIRs W (some f)).partitions ∧
    (∀ q, f.frames ≤ m.blocksize * q → (m.LoadIRs W (some f)).partitions ≤ q) ∧
    ConvolverManager.LoadIRs.responseLength W m.blocksize (m.LoadIRs W (some f)).partitions
      = m.blocksize * (m.LoadIRs W (some f)).partitions ∧
    m.blocksize * (m.LoadIRs W (some f)).partitions - f.frames < m.blocksize := by
  obtain ⟨c1, c2, c3⟩ := ceilDiv_spec f.frames m.blocksize hB
  have hq : (f.frames + m.blocksize - 1) / m.blocksize < 2 ^ W.uint :=
    lt_of_le_of_lt (Nat.le_mul_of_pos_left _ hB) hfit
  have hp : (m.LoadIRs W (some f)).partitions = (f.frames + m.blocksize - 1) / m.blocksize := by
    simp only [ConvolverManager.LoadIRs]
    exact LoadIRs_partitions_eq W f.frames m.blocksize hB hno hq
  have hBq : (0 : ℚ) < (m.blocksize : ℚ) := by exact_mod_cast hB
  rw [hp]
  refine ⟨rfl, ?_, c1, c2, ?_, c3⟩
  · apply le_antisymm
    · apply c2
      have h1 : (f.frames : ℚ) / (m.blocksize : ℚ) ≤
          (⌈(f.frames : ℚ) / (m.blocksize : ℚ)⌉₊ : ℚ) := Nat.le_ceil _
      rw [div_le_iff₀ hBq] at h1
      have h2 : (f.frames : ℚ) ≤ ((m.blocksize * ⌈(f.frames : ℚ) / (m.blocksize : ℚ)⌉₊ : ℕ) : ℚ) := by
        push_cast; linarith
      exact_mod_cast h2
    · rw [Nat.ceil_le, div_le_iff₀ hBq]
      have h2 : ((f.frames : ℕ) : ℚ) ≤
          ((m.blocksize * ((f.frames + m.blocksize - 1) / m.blocksize) : ℕ) : ℚ) := by
        exact_mod_cast c1
      push_cast at h2 ⊢
      linarith
  · unfold ConvolverManager.LoadIRs.responseLength
    exact Nat.mod_eq_of_lt hfit

/-- Witness of C5: an IR of 256 frames at block size 64 gives 4 partitions. -/
theorem LoadIRs_partitions_ceil_witness :
    (0 < (ConvolverManager.new lp64 none none 64 : ConvolverManager Unit).blocksize ∧
      demoIR.frames + (ConvolverManager.new lp64 none none 64 : ConvolverManager Unit).blocksize - 1
        < 2 ^ lp64.ulong ∧
      (ConvolverManager.new lp64 none none 64 : ConvolverManager Unit).blocksize *
        ((demoIR.frames +
          (ConvolverManager.new lp64 none none 64 : ConvolverManager Unit).blocksize - 1) /
          (ConvolverManager.new lp64 none none 64 : ConvolverManager Unit).blocksize)
        < 2 ^ lp64.uint) ∧
    ((ConvolverManager.new lp64 none none 64 : ConvolverManager Unit).LoadIRs lp64
      (some demoIR)).partitions = 4 := by
  have h := LoadIRs_partitions_ceil lp64
    (ConvolverManager.new lp64 none none 64 : ConvolverManager Unit) demoIR
    (by decide) (by decide) (by decide)
  exact ⟨⟨by decide, by decide, by decide⟩, h.1.trans (by decide)⟩

/-! ## Theorems: SetConvolverCount -/

/-- The creation loop, given enough passes, appends the workers for the positions
from the pool size up to `n`. -/
theorem SetConvolverCount_create_spec (E : APFConvolver σ) (m : ConvolverManager σ)
    (spawn : Nat → Option Nat) (n : Nat) :
    ∀ (fuel : Nat) (pool : List (Convolver σ)) (created : Nat), n - pool.length ≤ fuel →
      ConvolverManager.SetConvolverCount.create E m spawn n fuel (pool, created) =
        (pool ++ (List.range' pool.length (n - pool.length)).map
            (ConvolverManager.SetConvolverCount.worker E m spawn),
          created + (n - pool.length)) := by
  intro fuel
  induction fuel with
  | zero =>
    intro pool created h
    have h0 : n - pool.length = 0 := by omega
    simp [ConvolverManager.SetConvolverCount.create, h0]
  | succ fuel ih =>
    intro pool created h
    by_cases hlt : pool.length < n
    · have hstep : n - pool.length = (n - (pool.length + 1)) + 1 := by omega
      simp only [ConvolverManager.SetConvolverCount.create, hlt, if_true, Convolver.alloc]
      rw [ih (pool ++ [_]) (created + 1) (by simp; omega)]
      simp only [List.length_append, List.length_singleton]
      rw [hstep, List.range'_succ, List.map_cons, List.append_assoc]
      simp only [List.singleton_append, ConvolverManager.SetConvolverCount.worker]
      congr 1
      omega
    · have h0 : n - pool.length = 0 := by omega
      simp [ConvolverManager.SetConvolverCount.create, hlt, h0]

/-- The destruction loop, given enough passes, keeps the first `n` workers. -/
theorem SetConvolverCount_destroy_spec (n : Nat) :
    ∀ (fuel : Nat) (pool : List (Convolver σ)) (destroyed : Nat), pool.length - n ≤ fuel →
      ConvolverManager.SetConvolverCount.destroy n fuel (pool, destroyed) =
        (pool.take n, destroyed + (pool.length - n)) := by
  intro fuel
  induction fuel with
  | zero =>
    intro pool destroyed h
    have h0 : pool.length - n = 0 := by omega
    have hle : pool.length ≤ n := by omega
    simp [ConvolverManager.SetConvolverCount.destroy, h0, List.take_of_length_le hle]
  | succ fuel ih =>
    intro pool destroyed h
    by_cases hgt : pool.length > n
    · simp only [ConvolverManager.SetConvolverCount.destroy, hgt, if_true]
      rw [ih pool.dropLast (destroyed + 1) (by simp; omega)]
      have e1 : pool.dropLast.take n = pool.take n := by
        rw [List.dropLast_eq_take, List.take_take]
        congr 1
        omega
      rw [e1, List.length_dropLast]
      congr 1
      omega
    · have h0 : pool.length - n = 0 := by omega
      have hle : pool.length ≤ n := by omega
      simp [ConvolverManager.SetConvolverCount.destroy, hgt, h0, List.take_of_length_le hle]

/-- The pool, the number of workers created and the number destroyed by
`SetConvolverCount`. -/
theorem SetConvolverCount_run_spec (E : APFConvolver σ) (m : ConvolverManager σ)
    (spawn : Nat → Option Nat) (n : Nat) :
    ConvolverManager.SetConvolverCount.run E m spawn n =
      ((m.convolvers ++ (List.range' m.convolvers.length (n - m.convolvers.length)).map
          (ConvolverManager.SetConvolverCount.worker E m spawn)).take n,
        n - m.convolvers.length,
        m.convolvers.length - n) := by
  unfold ConvolverManager.SetConvolverCount.run
  simp only [SetConvolverCount_create_spec E m spawn n _ m.convolvers 0 (le_refl _)]
  rw [SetConvolverCount_destroy_spec n _ _ 0 (le_refl _)]
  simp only [List.length_append, List.length_map, List.length_range', Nat.zero_add]
  congr 2
  omega

/-- The pool after `SetConvolverCount(n)`. -/
theorem SetConvolverCount_convolvers (E : APFConvolver σ) (m : ConvolverManager σ)
    (spawn : Nat → Option Nat) (n : Nat) :
    (m.SetConvolverCount E spawn n).convolvers =
      (m.convolvers ++ (List.range' m.convolvers.length (n - m.convolvers.length)).map
          (ConvolverManager.SetConvolverCount.worker E m spawn)).take n := by
  simp only [ConvolverManager.SetConvolverCount, SetConvolverCount_run_spec E m spawn n]

theorem SetConvolverCount_length (E : APFConvolver σ) (m : ConvolverManager σ)
    (spawn : Nat → Option Nat) (n : Nat) :
    (m.SetConvolverCount E spawn n).convolvers.length = n := by
  rw [SetConvolverCount_convolvers]
  simp only [List.length_take, List.length_append, List.length_map, List.length_range']
  omega

/-- The worker at a new position `i` of the pool is the one the constructor
builds for index `i`, whatever the outcome of its thread creation. -/
theorem SetConvolverCount_new_worker (E : APFConvolver σ) (m : ConvolverManager σ)
    (spawn : Nat → Option Nat) (n i : Nat) (h1 : m.convolvers.length ≤ i) (h2 : i < n) :
    (m.SetConvolverCount E spawn n).convolvers[i]? =
      some (ConvolverManager.SetConvolverCount.worker E m spawn i) := by
  rw [SetConvolverCount_convolvers, List.getElem?_take_of_lt h2, List.getElem?_append_right h1]
  rw [List.getElem?_map, List.getElem?_range' _ _ (by omega)]
  simp only [Nat.one_mul, Option.map_some']
  congr 2
  omega

/-- C6: after SetConvolverCount(n) the pool holds exactly `n` workers; when the
pool grows, the workers already present stay in place and each new worker has
`convindex` equal to its position; when it shrinks, the first `n` workers are
kept. -/
theorem SetConvolverCount_pool (E : APFConvolver σ) (m : ConvolverManager σ)
    (spawn : Nat → Option Nat) (n : Nat) :
    (m.SetConvolverCount E spawn n).convolvers.length = n ∧
    (m.SetConvolverCount E spawn n).convolvers.take m.convolvers.length =
      m.convolvers.take n ∧
    (∀ i, m.convolvers.length ≤ i → i < n →
      ∃ w, (m.SetConvolverCount E spawn n).convolvers[i]? = some w ∧ w.convindex = i) ∧
    (n ≤ m.convolvers.length → (m.SetConvolverCount E spawn n).convolvers = m.convolvers.take n) ∧
    (m.convolvers.length ≤ n →
      (m.SetConvolverCount E spawn n).convolvers.take m.convolvers.length = m.convolvers) := by
  have hpool := SetConvolverCount_convolvers E m spawn n
  have htake : (m.SetConvolverCount E spawn n).convolvers.take m.convolvers.length =
      m.convolvers.take n := by
    rw [hpool, List.take_take, List.take_append_eq_append_take]
    have e : min m.convolvers.length n - m.convolvers.length = 0 := by omega
    rw [e, List.take_zero, List.append_nil]
    by_cases hle : n ≤ m.convolvers.length
    · rw [Nat.min_eq_right hle]
    · have hle2 : m.convolvers.length ≤ n := by omega
      rw [Nat.min_eq_left hle2, List.take_of_length_le (le_refl _), List.take_of_length_le hle2]
  refine ⟨SetConvolverCount_length E m spawn n, htake, ?_, ?_, ?_⟩
  · intro i h1 h2
    exact ⟨ConvolverManager.SetConvolverCount.worker E m spawn i,
      SetConvolverCount_new_worker E m spawn n i h1 h2, rfl⟩
  · intro h
    have e : n - m.convolvers.length = 0 := by omega
    rw [hpool, e]
    simp
  · intro h
    rw [htake]
    exact List.take_of_length_le h

/-- C7 (the code at the failing input): when `pthread_create` fails,
`SetConvolverCount(1)` on an empty pool still adds the worker: the pool has one
worker and its thread handle is 0. -/
theorem SetConvolverCount_keeps_unstarted :
    (((ConvolverManager.new lp64 (some demoIR) (some [10, 2]) 64).SetConvolverCount unitEngine
      (fun _ => none) 1).convolvers.map (fun w => w.thread)) = [0] := by
  decide

/-- C8: a second SetConvolverCount(k) right after SetConvolverCount(k) creates no
worker, destroys no worker and leaves the pool as it is, whatever the outcomes
of thread creation. -/
theorem SetConvolverCount_idempotent (E : APFConvolver σ) (m : ConvolverManager σ)
    (spawn1 spawn2 : Nat → Option Nat) (k : Nat) :
    ConvolverManager.SetConvolverCount.run E (m.SetConvolverCount E spawn1 k) spawn2 k =
      ((m.SetConvolverCount E spawn1 k).convolvers, 0, 0) ∧
    (m.SetConvolverCount E spawn1 k).SetConvolverCount E spawn2 k =
      m.SetConvolverCount E spawn1 k := by
  have hlen := SetConvolverCount_length E m spawn1 k
  have hrun : ConvolverManager.SetConvolverCount.run E (m.SetConvolverCount E spawn1 k) spawn2 k =
      ((m.SetConvolverCount E spawn1 k).convolvers, 0, 0) := by
    rw [SetConvolverCount_run_spec, hlen]
    simp only [Nat.sub_self, List.range'_zero, List.map_nil, List.append_nil]
    rw [List.take_of_length_le (le_of_eq hlen)]
  refine ⟨hrun, ?_⟩
  generalize m.SetConvolverCount E spawn1 k = M at hrun ⊢
  simp only [ConvolverManager.SetConvolverCount, hrun]

/-! ## Theorems: Convolve -/

theorem cycle_blocksize (E : APFConvolver σ) (F : (Nat → ℚ) → Nat → Nat → Nat → ℚ → ℚ)
    (w : Convolver σ) : (Convolver.Process.cycle E F w).blocksize = w.blocksize := rfl

theorem cycle_input (E : APFConvolver σ) (F : (Nat → ℚ) → Nat → Nat → Nat → ℚ → ℚ)
    (w : Convolver σ) : (Convolver.Process.cycle E F w).input = w.input := rfl

theorem threadPass_blocksize (E : APFConvolver σ) (F : (Nat → ℚ) → Nat → Nat → Nat → ℚ → ℚ)
    (w : Convolver σ) : (Convolver.threadPass E F w).blocksize = w.blocksize := by
  unfold Convolver.threadPass
  split <;> rfl

theorem threadPass_input (E : APFConvolver σ) (F : (Nat → ℚ) → Nat → Nat → Nat → ℚ → ℚ)
    (w : Convolver σ) : (Convolver.threadPass E F w).input = w.input := by
  unfold Convolver.threadPass
  split <;> rfl

theorem StartConvolution_blocksize (w : Convolver σ) (mem : Nat → ℚ) (off ic : Nat) (hq : Bool) :
    (w.StartConvolution mem off ic hq).blocksize = w.blocksize := rfl

theorem StartConvolution_input (w : Convolver σ) (mem : Nat → ℚ) (off ic : Nat) (hq : Bool)
    (j : Nat) (hj : j < w.blocksize) :
    (w.StartConvolution mem off ic hq).input j = mem (off + j * ic) := by
  simp [Convolver.StartConvolution, hj]

/-- Worker `k` after the first loop of `Convolve`. -/
theorem Convolve_start_getElem (E : APFConvolver σ) (F : (Nat → ℚ) → Nat → Nat → Nat → ℚ → ℚ)
    (hq : Bool) (input : Nat → ℚ) (ic oc : Nat) :
    ∀ (ws : List (Convolver σ)) (i0 k : Nat),
      (ConvolverManager.Convolve.start E F hq input ic oc i0 ws)[k]? =
        (ws[k]?).map (fun w =>
          Convolver.threadPass E F (w.StartConvolution input ((i0 + k) / oc) ic hq)) := by
  intro ws
  induction ws with
  | nil => intro i0 k; simp [ConvolverManager.Convolve.start]
  | cons w rest ih =>
    intro i0 k
    cases k with
    | zero => simp [ConvolverManager.Convolve.start]
    | succ k =>
      simp only [ConvolverManager.Convolve.start, List.getElem?_cons_succ]
      rw [ih (i0 + 1) k]
      have e : i0 + 1 + k = i0 + (k + 1) := by omega
      rw [e]

theorem Convolve_start_length (E : APFConvolver σ) (F : (Nat → ℚ) → Nat → Nat → Nat → ℚ → ℚ)
    (hq : Bool) (input : Nat → ℚ) (ic oc : Nat) :
    ∀ (ws : List (Convolver σ)) (i0 : Nat),
      (ConvolverManager.Convolve.start E F hq input ic oc i0 ws).length = ws.length := by
  intro ws
  induction ws with
  | nil => intro i0; simp [ConvolverManager.Convolve.start]
  | cons w rest ih => intro i0; simp [ConvolverManager.Convolve.start, ih]

theorem Convolve_start_blocksize (E : APFConvolver σ)
    (F : (Nat → ℚ) → Nat → Nat → Nat → ℚ → ℚ) (hq : Bool) (input : Nat → ℚ) (ic oc B : Nat) :
    ∀ (ws : List (Convolver σ)) (i0 : Nat), (∀ w ∈ ws, w.blocksize = B) →
      ∀ w ∈ ConvolverManager.Convolve.start E F hq input ic oc i0 ws, w.blocksize = B := by
  intro ws
  induction ws with
  | nil => intro i0 _ w hw; simp [ConvolverManager.Convolve.start] at hw
  | cons w0 rest ih =>
    intro i0 h w hw
    simp only [ConvolverManager.Convolve.start, List.mem_cons] at hw
    rcases hw with rfl | hw
    · rw [threadPass_blocksize, StartConvolution_blocksize]
      exact h w0 (List.mem_cons_self _ _)
    · exact ih (i0 + 1) (fun x hx => h x (List.mem_cons_of_mem _ hx)) w hw

/-- The position `base + n * oc` is the one with remainder `base` and quotient `n`. -/
theorem interleaved_index_iff (oc base p n : Nat) (hb : base < oc) :
    p = base + n * oc ↔ (p % oc = base ∧ p / oc = n) := by
  have hoc : 0 < oc := by omega
  constructor
  · intro h
    subst h
    refine ⟨?_, ?_⟩
    · rw [Nat.add_mul_mod_self_right, Nat.mod_eq_of_lt hb]
    · rw [Nat.add_mul_div_right _ _ hoc, Nat.div_eq_of_lt hb, Nat.zero_add]
  · rintro ⟨h1, h2⟩
    have h := Nat.div_add_mod p oc
    rw [h1, h2, Nat.mul_comm] at h
    omega

/-- The mixing loop of `EndConvolution`, position by position. -/
theorem EndConvolution_apply (w : Convolver σ) (mem : Nat → ℚ) (base oc : Nat) (hb : base < oc)
    (p : Nat) :
    w.EndConvolution mem base oc p =
      if p % oc = base ∧ p / oc < w.blocksize then mem p + w.output (p / oc) else mem p := by
  unfold Convolver.EndConvolution
  generalize w.blocksize = n
  induction n with
  | zero => simp
  | succ n ih =>
    rw [List.range_succ, List.foldl_append, List.foldl_cons, List.foldl_nil,
      Function.update_apply]
    by_cases hp : p = base + n * oc
    · have h := (interleaved_index_iff oc base p n hb).mp hp
      rw [if_pos hp, ← hp, ih]
      have h1 : ¬ (p % oc = base ∧ p / oc < n) := by omega
      have h2 : p % oc = base ∧ p / oc < n + 1 := by omega
      rw [if_neg h1, if_pos h2, h.2]
    · have h := (interleaved_index_iff oc base p n hb).not.mp hp
      rw [if_neg hp, ih]
      by_cases hc : p % oc = base ∧ p / oc < n
      · have h2 : p % oc = base ∧ p / oc < n + 1 := by omega
        rw [if_pos hc, if_pos h2]
      · have h2 : ¬ (p % oc = base ∧ p / oc < n + 1) := by
          intro h3
          apply h
          refine ⟨h3.1, ?_⟩
          by_contra hne
          exact hc ⟨h3.1, by omega⟩
        rw [if_neg hc, if_neg h2]

/-- A position that no worker writes keeps its value through the second loop,
whether or not the loop gets through. -/
theorem Convolve_finish_unchanged (oc B : Nat) (hoc : 0 < oc) :
    ∀ (ws : List (Convolver σ)) (i0 : Nat) (out : Nat → ℚ) (p : Nat),
      (∀ w ∈ ws, w.blocksize = B) →
      (∀ k, k < ws.length → ¬ ((i0 + k) % oc = p % oc ∧ p / oc < B)) →
      ConvolverManager.Convolve.finish oc i0 ws out p = out p := by
  intro ws
  induction ws with
  | nil => intro i0 out p _ _; rfl
  | cons w rest ih =>
    intro i0 out p h hp
    have hw : w.blocksize = B := h w (List.mem_cons_self _ _)
    have hrest : ∀ x ∈ rest, x.blocksize = B := fun x hx => h x (List.mem_cons_of_mem _ hx)
    simp only [ConvolverManager.Convolve.finish]
    by_cases hr : w.responds = true
    · rw [if_pos hr, ih (i0 + 1) _ p hrest
        (by
          intro k hk
          have := hp (k + 1) (by simp; omega)
          have e : i0 + 1 + k = i0 + (k + 1) := by omega
          rw [e]
          exact this),
        EndConvolution_apply w out (i0 % oc) oc (Nat.mod_lt _ hoc) p, hw]
      have h0 := hp 0 (by simp)
      rw [Nat.add_zero] at h0
      rw [if_neg (fun hc => h0 ⟨hc.1.symm, hc.2⟩)]
    · rw [if_neg hr]

theorem new_pool_blocksize (W : IntWidths) (irfile : Option IRFile)
    (irdelayfile : Option (List ℚ)) (partitionsize : Nat) :
    ∀ w ∈ (ConvolverManager.new W irfile irdelayfile partitionsize :
        ConvolverManager σ).convolvers,
      w.blocksize =
        (ConvolverManager.new W irfile irdelayfile partitionsize : ConvolverManager σ).blocksize := by
  intro w hw
  rw [ConvolverManager.new, LoadIRDelays_convolvers] at hw
  cases irfile <;> simp [ConvolverManager.LoadIRs] at hw

theorem LoadIRs_pool_blocksize (W : IntWidths) (m : ConvolverManager σ) (file : Option IRFile)
    (h : ∀ w ∈ m.convolvers, w.blocksize = m.blocksize) :
    ∀ w ∈ (m.LoadIRs W file).convolvers, w.blocksize = (m.LoadIRs W file).blocksize := by
  cases file <;> exact h

theorem LoadIRDelays_pool_blocksize (m : ConvolverManager σ) (file : Option (List ℚ))
    (h : ∀ w ∈ m.convolvers, w.blocksize = m.blocksize) :
    ∀ w ∈ (m.LoadIRDelays file).convolvers, w.blocksize = (m.LoadIRDelays file).blocksize := by
  cases file <;> exact h

theorem SetConvolverCount_pool_blocksize (E : APFConvolver σ) (m : ConvolverManager σ)
    (spawn : Nat → Option Nat) (n : Nat) (h : ∀ w ∈ m.convolvers, w.blocksize = m.blocksize) :
    ∀ w ∈ (m.SetConvolverCount E spawn n).convolvers,
      w.blocksize = (m.SetConvolverCount E spawn n).blocksize := by
  intro w hw
  rw [SetConvolverCount_convolvers] at hw
  rcases List.mem_append.mp (List.mem_of_mem_take hw) with h1 | h1
  · exact h w h1
  · obtain ⟨i, _, rfl⟩ := List.mem_map.mp h1
    rfl

theorem SelectIR_pool_blocksize (m : ConvolverManager σ) (convolver ir : Nat)
    (h : ∀ w ∈ m.convolvers, w.blocksize = m.blocksize) :
    ∀ w ∈ (m.SelectIR convolver ir).2.convolvers,
      w.blocksize = (m.SelectIR convolver ir).2.blocksize := by
  intro w hw
  by_cases hc : convolver < m.convolvers.length
  · by_cases hi : ir < m.filters.length
    · rw [SelectIR_convolvers m convolver ir hc hi] at hw ⊢
      rcases List.mem_or_eq_of_mem_set hw with h1 | h1
      · exact h w h1
      · rw [h1, SetResponse_blocksize]
        exact h _ (List.getElem_mem _)
    · simp only [ConvolverManager.SelectIR, hc, hi, dif_pos, if_false] at hw ⊢
      exact h w hw
  · simp only [ConvolverManager.SelectIR, hc, dif_neg, not_false_eq_true] at hw ⊢
    exact h w hw

theorem Convolve_pool_blocksize (E : APFConvolver σ) (F : (Nat → ℚ) → Nat → Nat → Nat → ℚ → ℚ)
    (m : ConvolverManager σ) (input output : Nat → ℚ) (ic oc : Nat)
    (h : ∀ w ∈ m.convolvers, w.blocksize = m.blocksize) :
    ∀ w ∈ (m.Convolve E F input output ic oc).1.convolvers,
      w.blocksize = (m.Convolve E F input output ic oc).1.blocksize :=
  Convolve_start_blocksize E F m.hqproc input ic oc m.blocksize m.convolvers 0 h

/-! ## Theorems: rounding to double -/

/-- Rounding to the nearest integer does not go below the floor. -/
theorem roundHalfEven_floor_le (x : ℚ) : ⌊x⌋ ≤ roundHalfEven x := by
  unfold roundHalfEven
  split_ifs <;> omega

/-- Rounding to the nearest integer does not go above the floor plus one. -/
theorem roundHalfEven_le (x : ℚ) : roundHalfEven x ≤ ⌊x⌋ + 1 := by
  unfold roundHalfEven
  split_ifs <;> omega

/-- An integer closer than one half is the rounded value. -/
theorem roundHalfEven_eq (x : ℚ) (n : ℤ) (h : |x - n| < 1 / 2) : roundHalfEven x = n := by
  rw [abs_lt] at h
  have hf1 : (⌊x⌋ : ℚ) ≤ x := Int.floor_le x
  have hf2 : x < ⌊x⌋ + 1 := Int.lt_floor_add_one x
  unfold roundHalfEven
  by_cases hn : (n : ℚ) ≤ x
  · have hfl : ⌊x⌋ = n := by
      rw [Int.floor_eq_iff]
      exact ⟨hn, by linarith [h.2]⟩
    have : x - ⌊x⌋ < 1 / 2 := by rw [hfl]; linarith [h.2]
    rw [if_pos this, hfl]
  · have hn2 : x < n := not_le.mp hn
    have hfl : ⌊x⌋ = n - 1 := by
      rw [Int.floor_eq_iff]
      push_cast
      exact ⟨by linarith [h.1], by linarith⟩
    have h1 : ¬ (x - ⌊x⌋ < 1 / 2) := by rw [hfl]; push_cast; linarith [h.1]
    have h2 : 1 / 2 < x - ⌊x⌋ := by rw [hfl]; push_cast; linarith [h.1]
    rw [if_neg h1, if_pos h2, hfl]
    ring

/-- Rounding to `double` keeps a non-negative number non-negative. -/
theorem roundDouble_nonneg (x : ℚ) (h : 0 ≤ x) : 0 ≤ roundDouble x := by
  unfold roundDouble
  split_ifs with h0
  · exact le_refl 0
  · have hp : (0 : ℚ) < 2 ^ (Int.log 2 |x| - 52) := zpow_pos (by norm_num) _
    have hq : 0 ≤ x / 2 ^ (Int.log 2 |x| - 52) := div_nonneg h (le_of_lt hp)
    have hfl : 0 ≤ ⌊x / 2 ^ (Int.log 2 |x| - 52)⌋ := Int.floor_nonneg.mpr hq
    have hr := roundHalfEven_floor_le (x / 2 ^ (Int.log 2 |x| - 52))
    have : (0 : ℚ) ≤ (roundHalfEven (x / 2 ^ (Int.log 2 |x| - 52)) : ℚ) := by
      exact_mod_cast le_trans hfl hr
    exact mul_nonneg this (le_of_lt hp)

/-- A certificate for the `double` nearest to `x`: for `x` in the binade
`[2 ^ (e + 52), 2 ^ (e + 53))` the spacing of the doubles is `2 ^ e`, and the
rounded value is `n * 2 ^ e` for the integer `n` nearest to `x / 2 ^ e`. -/
theorem roundDouble_eq (x : ℚ) (e n : ℤ) (h1 : (2 : ℚ) ^ (e + 52) ≤ x)
    (h2 : x < (2 : ℚ) ^ (e + 53)) (h3 : |x / 2 ^ e - n| < 1 / 2) :
    roundDouble x = n * 2 ^ e := by
  have hx : 0 < x := lt_of_lt_of_le (zpow_pos (by norm_num) _) h1
  have habs : |x| = x := abs_of_pos hx
  have hlog : Int.log 2 x = e + 52 := by
    apply le_antisymm
    · have := (Int.lt_zpow_iff_log_lt (b := 2) (by norm_num) hx (x := e + 53)).mp
        (by exact_mod_cast h2)
      omega
    · exact (Int.zpow_le_iff_le_log (b := 2) (by norm_num) hx).mp (by exact_mod_cast h1)
  unfold roundDouble
  rw [if_neg (ne_of_gt hx), habs, hlog]
  have e1 : e + 52 - 52 = e := by ring
  rw [e1, roundHalfEven_eq _ n h3]

/-- A number half way between the even integer `n` and `n + 1` is rounded to `n`. -/
theorem roundHalfEven_tie (x : ℚ) (n : ℤ) (h : x = n + 1 / 2) (he : n % 2 = 0) :
    roundHalfEven x = n := by
  have hfl : ⌊x⌋ = n := by
    rw [Int.floor_eq_iff, h]
    constructor <;> linarith
  have h1 : ¬ (x - ⌊x⌋ < 1 / 2) := by rw [hfl, h]; norm_num
  have h2 : ¬ (1 / 2 < x - ⌊x⌋) := by rw [hfl, h]; norm_num
  unfold roundHalfEven
  rw [if_neg h1, if_neg h2, hfl, if_pos he]

/-- A certificate for the `double` nearest to `x` in a tie: for `x` in the binade
`[2 ^ (e + 52), 2 ^ (e + 53))` and half way between `n * 2 ^ e` and
`(n + 1) * 2 ^ e` with `n` even, the rounded value is `n * 2 ^ e`. -/
theorem roundDouble_tie (x : ℚ) (e n : ℤ) (h1 : (2 : ℚ) ^ (e + 52) ≤ x)
    (h2 : x < (2 : ℚ) ^ (e + 53)) (h3 : x / 2 ^ e = n + 1 / 2) (he : n % 2 = 0) :
    roundDouble x = n * 2 ^ e := by
  have hx : 0 < x := lt_of_lt_of_le (zpow_pos (by norm_num) _) h1
  have habs : |x| = x := abs_of_pos hx
  have hlog : Int.log 2 x = e + 52 := by
    apply le_antisymm
    · have := (Int.lt_zpow_iff_log_lt (b := 2) (by norm_num) hx (x := e + 53)).mp
        (by exact_mod_cast h2)
      omega
    · exact (Int.zpow_le_iff_le_log (b := 2) (by norm_num) hx).mp (by exact_mod_cast h1)
  unfold roundDouble
  rw [if_neg (ne_of_gt hx), habs, hlog]
  have e1 : e + 52 - 52 = e := by ring
  rw [e1, roundHalfEven_tie _ n h3 he]

/-- Rounding to `double` keeps a number of `[0, 1]` at most 1. -/
theorem roundDouble_le_one (x : ℚ) (h0 : 0 ≤ x) (h1 : x ≤ 1) : roundDouble x ≤ 1 := by
  rcases eq_or_lt_of_le h0 with h | hpos
  · rw [← h]; simp [roundDouble]
  rcases eq_or_lt_of_le h1 with h | hlt
  · rw [h, roundDouble_eq 1 (-52) (2 ^ 52) (by norm_num) (by norm_num) (by norm_num)]
    norm_num
  · have habs : |x| = x := abs_of_pos hpos
    have hlog : Int.log 2 x < 0 :=
      (Int.lt_zpow_iff_log_lt (b := 2) (by norm_num) hpos (x := 0)).mp (by simpa using hlt)
    have hup : x < (2 : ℚ) ^ (Int.log 2 x + 1) := by
      exact_mod_cast Int.lt_zpow_succ_log_self (b := 2) (by norm_num) x
    unfold roundDouble
    rw [if_neg (ne_of_gt hpos), habs]
    set L := Int.log 2 x with hL
    have hp : (0 : ℚ) < 2 ^ (L - 52) := zpow_pos (by norm_num) _
    have hy : x / 2 ^ (L - 52) < 2 ^ (53 : ℕ) := by
      rw [div_lt_iff₀ hp]
      have : (2 : ℚ) ^ (53 : ℕ) * 2 ^ (L - 52) = 2 ^ (L + 1) := by
        rw [← zpow_natCast, ← zpow_add₀ (by norm_num : (2 : ℚ) ≠ 0)]
        congr 1
        push_cast
        ring
      rw [this]
      exact hup
    have hfl : ⌊x / 2 ^ (L - 52)⌋ < 2 ^ (53 : ℕ) := by
      rw [Int.floor_lt]
      exact_mod_cast hy
    have hr := roundHalfEven_le (x / 2 ^ (L - 52))
    have hr2 : roundHalfEven (x / 2 ^ (L - 52)) ≤ 2 ^ (53 : ℕ) := by omega
    have hr3 : (roundHalfEven (x / 2 ^ (L - 52)) : ℚ) ≤ 2 ^ (53 : ℕ) := by exact_mod_cast hr2
    calc (roundHalfEven (x / 2 ^ (L - 52)) : ℚ) * 2 ^ (L - 52)
        ≤ 2 ^ (53 : ℕ) * 2 ^ (L - 52) := mul_le_mul_of_nonneg_right hr3 (le_of_lt hp)
      _ = 2 ^ (L + 1) := by
        rw [← zpow_natCast, ← zpow_add₀ (by norm_num : (2 : ℚ) ≠ 0)]
        congr 1
        push_cast
        ring
      _ ≤ 2 ^ (0 : ℤ) := zpow_le_zpow_right₀ (by norm_num) (by omega)
      _ = 1 := by norm_num

/-- A number with at most 53 significant bits is a `double`: rounding leaves it
as it is. -/
theorem roundDouble_exact (n : Nat) (e : ℤ) (hn : n < 2 ^ 53) :
    roundDouble ((n : ℚ) * 2 ^ e) = (n : ℚ) * 2 ^ e := by
  rcases Nat.eq_zero_or_pos n with h0 | hpos
  · simp [h0, roundDouble]
  have h2 : (0 : ℚ) < 2 ^ e := zpow_pos (by norm_num) _
  have hx : (0 : ℚ) < n * 2 ^ e := mul_pos (by exact_mod_cast hpos) h2
  have habs : |(n : ℚ) * 2 ^ e| = n * 2 ^ e := abs_of_pos hx
  unfold roundDouble
  rw [if_neg (ne_of_gt hx), habs]
  have hlow : (2 : ℚ) ^ Int.log 2 ((n : ℚ) * 2 ^ e) ≤ n * 2 ^ e := by
    exact_mod_cast Int.zpow_log_le_self (b := 2) (by norm_num) hx
  generalize Int.log 2 ((n : ℚ) * 2 ^ e) = L at hlow ⊢
  have hup : (n : ℚ) * 2 ^ e < 2 ^ (e + 53) := by
    have hn2 : (n : ℚ) < 2 ^ (53 : ℤ) := by
      have h53 : ((n : ℕ) : ℚ) < ((2 ^ 53 : ℕ) : ℚ) := by exact_mod_cast hn
      have e53 : ((2 ^ 53 : ℕ) : ℚ) = 2 ^ (53 : ℤ) := by norm_num
      rw [e53] at h53
      exact h53
    rw [zpow_add₀ (by norm_num : (2 : ℚ) ≠ 0), mul_comm]
    exact mul_lt_mul_of_pos_left hn2 h2
  have hLe : L < e + 53 :=
    (zpow_lt_zpow_iff_right₀ (by norm_num : (1 : ℚ) < 2)).mp (lt_of_le_of_lt hlow hup)
  obtain ⟨k, hk⟩ : ∃ k : ℕ, (k : ℤ) = e + 52 - L :=
    ⟨(e + 52 - L).toNat, Int.toNat_of_nonneg (by omega)⟩
  have hp : (0 : ℚ) < 2 ^ (L - 52) := zpow_pos (by norm_num) _
  have hsplit : (2 : ℚ) ^ e = 2 ^ k * 2 ^ (L - 52) := by
    rw [← zpow_natCast, ← zpow_add₀ (by norm_num : (2 : ℚ) ≠ 0), hk]
    congr 1
    ring
  have hy : (n : ℚ) * 2 ^ e / 2 ^ (L - 52) = (((n * 2 ^ k : ℕ) : ℤ) : ℚ) := by
    rw [div_eq_iff (ne_of_gt hp), hsplit]
    push_cast
    ring
  have hr : roundHalfEven ((((n * 2 ^ k : ℕ) : ℤ) : ℚ)) = ((n * 2 ^ k : ℕ) : ℤ) :=
    roundHalfEven_eq _ _ (by simp)
  rw [hy, hr, hsplit]
  push_cast
  ring

theorem roundDouble_of_eq (x : ℚ) (n : Nat) (e : ℤ) (hx : x = (n : ℚ) * 2 ^ e)
    (hn : n < 2 ^ 53) : roundDouble x = (n : ℚ) * 2 ^ e := by
  rw [hx]
  exact roundDouble_exact n e hn

/-! ## Theorems: the delay stage of Process -/

theorem truncUInt_natCast (n : Nat) : truncUInt (n : ℚ) = n := by
  simp [truncUInt]

theorem released_blocksize (w : Convolver σ) (c : BlockCall) :
    (w.released c).blocksize = w.blocksize := by
  unfold Convolver.released
  rcases c.response with _ | ⟨f, d⟩
  · rfl
  · exact SetResponse_blocksize w f d

theorem released_delaypos (w : Convolver σ) (c : BlockCall) :
    (w.released c).delaypos = w.delaypos := by
  unfold Convolver.released
  rcases c.response with _ | ⟨f, d⟩
  · rfl
  · exact SetResponse_delaypos w f d

theorem released_delay (w : Convolver σ) (c : BlockCall) :
    (w.released c).delay = w.delay := by
  unfold Convolver.released
  rcases c.response with _ | ⟨f, d⟩
  · rfl
  · exact SetResponse_delay w f d

theorem released_delay1 (w : Convolver σ) (c : BlockCall) :
    (w.released c).delay1 = w.delay1 := by
  unfold Convolver.released
  rcases c.response with _ | ⟨f, d⟩
  · rfl
  · exact SetResponse_delay1 w f d

theorem released_hqproc (w : Convolver σ) (c : BlockCall) :
    (w.released c).hqproc = c.hqproc := by
  unfold Convolver.released
  rcases c.response with _ | ⟨f, d⟩ <;> rfl

theorem afterBlocks_blocksize (E : APFConvolver σ) (F : (Nat → ℚ) → Nat → Nat → Nat → ℚ → ℚ)
    (w0 : Convolver σ) (calls : Nat → BlockCall) (k : Nat) :
    (Convolver.afterBlocks E F w0 calls k).blocksize = w0.blocksize := by
  induction k with
  | zero => rfl
  | succ k ih =>
    simp only [Convolver.afterBlocks]
    rw [cycle_blocksize, released_blocksize, ih]

/-- The write position alternates between 0 and `blocksize`. -/
theorem afterBlocks_delaypos (E : APFConvolver σ) (F : (Nat → ℚ) → Nat → Nat → Nat → ℚ → ℚ)
    (w0 : Convolver σ) (calls : Nat → BlockCall) (h0 : w0.delaypos = 0) (k : Nat) :
    (Convolver.afterBlocks E F w0 calls k).delaypos = (k % 2) * w0.blocksize := by
  induction k with
  | zero => simp [Convolver.afterBlocks, h0]
  | succ k ih =>
    simp only [Convolver.afterBlocks]
    show ((Convolver.released _ _).delaypos + (Convolver.released _ _).blocksize) %
      ((Convolver.released _ _).blocksize * 2) = _
    rw [released_delaypos, released_blocksize, ih, afterBlocks_blocksize]
    rcases Nat.mod_two_eq_zero_or_one k with h | h
    · have h2 : (k + 1) % 2 = 1 := by omega
      rw [h, h2, Nat.zero_mul, Nat.zero_add, Nat.one_mul]
      rcases Nat.eq_zero_or_pos w0.blocksize with hz | hp
      · simp [hz]
      · exact Nat.mod_eq_of_lt (by omega)
    · have h2 : (k + 1) % 2 = 0 := by omega
      rw [h, h2, Nat.zero_mul, Nat.one_mul]
      have e : w0.blocksize + w0.blocksize = w0.blocksize * 2 := by ring
      rw [e, Nat.mod_self]

/-- Outside the block being written, the filter stage leaves the delay memory
as it was. -/
theorem filtered_outside (E : APFConvolver σ) (w : Convolver σ) (p : Nat)
    (hp : ¬ (w.delaypos ≤ p ∧ p < w.delaypos + w.blocksize)) :
    (Convolver.Process.filtered E w).1 p = w.delay p := by
  unfold Convolver.Process.filtered
  by_cases hq : E.queues_empty (Convolver.Process.update E w).2 = true
  · simp [hq, hp]
  · simp [hq, hp]

/-- With the same integer delay `d` before and after, the read position of
sample `i` is `delaypos + delaylen - d + i`. -/
theorem fpos_constant_delay (w : Convolver σ) (d i : Nat) (hB : 0 < w.blocksize)
    (hd : d ≤ w.blocksize) (h1 : w.delay1 = d) (h2 : w.outputdelay = d) :
    Convolver.Process.fpos w i = ((w.delaypos + w.blocksize * 2 - d + i : Nat) : ℚ) := by
  have hBq : (w.blocksize : ℚ) ≠ 0 := by exact_mod_cast (Nat.pos_iff_ne_zero.mp hB)
  have hle : d ≤ w.delaypos + w.blocksize * 2 := by omega
  simp only [Convolver.Process.fpos, Convolver.rampB, h1, h2]
  push_cast [Nat.cast_sub hle]
  field_simp
  ring

/-- For a block size `2 ^ m` with `m ≤ 25` and the same integer delay
`d ≤ blocksize` before and after, every step of the computation of the read
position is exact: the computed position is the exact one. -/
theorem fposDouble_pow2 (w : Convolver σ) (m d i : Nat) (hB : w.blocksize = 2 ^ m)
    (hm : m ≤ 25) (hd : d ≤ w.blocksize) (h1 : w.delay1 = d) (h2 : w.outputdelay = d)
    (hi : i < w.blocksize) (hp : w.delaypos ≤ w.blocksize) :
    Convolver.Process.fposDouble w i = Convolver.Process.fpos w i := by
  have hBpos : 0 < w.blocksize := by rw [hB]; exact Nat.pos_pow_of_pos m (by norm_num)
  have hBle : w.blocksize ≤ 33554432 := by
    rw [hB]
    exact le_trans (Nat.pow_le_pow_right (by norm_num) hm) (by norm_num)
  rw [fpos_constant_delay w d i hBpos hd h1 h2]
  have hdle : d ≤ w.delaypos + w.blocksize * 2 := by omega
  have hz : (2 : ℚ) ^ (-(m : ℤ)) * 2 ^ m = 1 := by
    rw [← zpow_natCast, ← zpow_add₀ (by norm_num : (2 : ℚ) ≠ 0)]
    simp
  have hBq : (w.blocksize : ℚ) = 2 ^ m := by rw [hB]; push_cast; rfl
  have hiq : (i : ℚ) ≤ (w.blocksize : ℚ) := by exact_mod_cast le_of_lt hi
  have e1 : ((w.delaypos + w.blocksize * 2 : Nat) : ℚ) - w.delay1 =
      ((w.delaypos + w.blocksize * 2 - d : Nat) : ℚ) * 2 ^ (0 : ℤ) := by
    rw [h1, Nat.cast_sub hdle]
    simp
  have e2 : ((w.delaypos + w.blocksize * 2 + w.blocksize : Nat) : ℚ) - w.outputdelay =
      ((w.delaypos + w.blocksize * 2 - d + w.blocksize : Nat) : ℚ) * 2 ^ (0 : ℤ) := by
    rw [h2]
    push_cast [Nat.cast_sub hdle]
    ring
  have e3 : (i : ℚ) / (w.blocksize : ℚ) = (i : ℚ) * 2 ^ (-(m : ℤ)) := by
    rw [hBq, zpow_neg, zpow_natCast, div_eq_mul_inv]
  have e4 : 1 - (i : ℚ) * 2 ^ (-(m : ℤ)) = ((w.blocksize - i : Nat) : ℚ) * 2 ^ (-(m : ℤ)) := by
    rw [Nat.cast_sub (le_of_lt hi), sub_mul, hBq, mul_comm ((2 : ℚ) ^ m), hz]
  have e5 : ((w.blocksize - i : Nat) : ℚ) * 2 ^ (-(m : ℤ)) *
        (((w.delaypos + w.blocksize * 2 - d : Nat) : ℚ) * 2 ^ (0 : ℤ)) =
      (((w.blocksize - i) * (w.delaypos + w.blocksize * 2 - d) : Nat) : ℚ) * 2 ^ (-(m : ℤ)) := by
    push_cast
    simp only [zpow_zero]
    ring
  have e6 : (i : ℚ) * 2 ^ (-(m : ℤ)) *
        (((w.delaypos + w.blocksize * 2 - d + w.blocksize : Nat) : ℚ) * 2 ^ (0 : ℤ)) =
      ((i * (w.delaypos + w.blocksize * 2 - d + w.blocksize) : Nat) : ℚ) * 2 ^ (-(m : ℤ)) := by
    push_cast
    simp only [zpow_zero]
    ring
  have e7 : (((w.blocksize - i) * (w.delaypos + w.blocksize * 2 - d) : Nat) : ℚ) *
        2 ^ (-(m : ℤ)) +
        ((i * (w.delaypos + w.blocksize * 2 - d + w.blocksize) : Nat) : ℚ) * 2 ^ (-(m : ℤ)) =
      ((w.delaypos + w.blocksize * 2 - d + i : Nat) : ℚ) * 2 ^ (0 : ℤ) := by
    have hsum : (w.blocksize - i) * (w.delaypos + w.blocksize * 2 - d) +
        i * (w.delaypos + w.blocksize * 2 - d + w.blocksize) =
        (w.delaypos + w.blocksize * 2 - d + i) * w.blocksize := by
      obtain ⟨c, hc⟩ : ∃ c, w.blocksize = i + c := ⟨w.blocksize - i, by omega⟩
      have hci : w.blocksize - i = c := by omega
      rw [hci]
      generalize w.delaypos + w.blocksize * 2 - d = P
      rw [hc]
      ring
    rw [← add_mul, ← Nat.cast_add, hsum, Nat.cast_mul, hBq, mul_assoc, mul_comm ((2 : ℚ) ^ m), hz]
    simp
  have b1 : w.delaypos + w.blocksize * 2 - d < 2 ^ 53 := by norm_num; omega
  have b2 : w.delaypos + w.blocksize * 2 - d + w.blocksize < 2 ^ 53 := by norm_num; omega
  have b3 : i < 2 ^ 53 := by norm_num; omega
  have b4 : w.blocksize - i < 2 ^ 53 := by norm_num; omega
  have b5 : (w.blocksize - i) * (w.delaypos + w.blocksize * 2 - d) < 2 ^ 53 :=
    lt_of_le_of_lt (Nat.mul_le_mul (show w.blocksize - i ≤ 33554432 by omega)
      (show w.delaypos + w.blocksize * 2 - d ≤ 100663296 by omega)) (by norm_num)
  have b6 : i * (w.delaypos + w.blocksize * 2 - d + w.blocksize) < 2 ^ 53 :=
    lt_of_le_of_lt (Nat.mul_le_mul (show i ≤ 33554432 by omega)
      (show w.delaypos + w.blocksize * 2 - d + w.blocksize ≤ 134217728 by omega)) (by norm_num)
  have b7 : w.delaypos + w.blocksize * 2 - d + i < 2 ^ 53 := by norm_num; omega
  simp only [Convolver.Process.fposDouble]
  rw [roundDouble_of_eq _ _ 0 e1 b1, roundDouble_of_eq _ _ 0 e2 b2,
    roundDouble_of_eq _ _ _ e3 b3, roundDouble_of_eq _ _ _ e4 b4,
    roundDouble_of_eq _ _ _ e5 b5, roundDouble_of_eq _ _ _ e6 b6,
    roundDouble_of_eq _ _ 0 e7 b7]
  simp

/-- Truncation of a non-negative position is its floor. -/
theorem truncUInt_of_nonneg (x : ℚ) (h : 0 ≤ x) : truncUInt x = ⌊x⌋.toNat := by
  have hfl : 0 ≤ ⌊x⌋ := Int.floor_nonneg.mpr h
  simp [truncUInt, h, hfl]

/-- In low-quality mode output sample `i` is the delay memory at the index
`(uint_t)fpos % delaylen`. -/
theorem cycle_output_lowQualityIndex (E : APFConvolver σ)
    (F : (Nat → ℚ) → Nat → Nat → Nat → ℚ → ℚ) (w : Convolver σ) (i : Nat)
    (hq : w.hqproc = false) (hi : i < w.blocksize) :
    (Convolver.Process.cycle E F w).output i =
      (Convolver.Process.filtered E w).1 (Convolver.Process.lowQualityIndex w i) := by
  simp only [Convolver.Process.cycle, Convolver.Process.lowQualityIndex, hi, if_true, hq,
    Bool.false_eq_true, if_false]

/-- In low-quality mode with the same integer delay `d` before and after, and
when the rounding of the read position of sample `i` loses nothing, output
sample `i` is the delay memory at `(delaypos + delaylen - d + i) % delaylen`. -/
theorem cycle_output_lowquality (E : APFConvolver σ)
    (F : (Nat → ℚ) → Nat → Nat → Nat → ℚ → ℚ) (w : Convolver σ) (d i : Nat)
    (hB : 0 < w.blocksize) (hd : d ≤ w.blocksize) (h1 : w.delay1 = d) (h2 : w.outputdelay = d)
    (hq : w.hqproc = false) (hi : i < w.blocksize)
    (hex : Convolver.Process.fposDouble w i = Convolver.Process.fpos w i) :
    (Convolver.Process.cycle E F w).output i =
      (Convolver.Process.filtered E w).1
        ((w.delaypos + w.blocksize * 2 - d + i) % (w.blocksize * 2)) := by
  rw [cycle_output_lowQualityIndex E F w i hq hi]
  unfold Convolver.Process.lowQualityIndex
  rw [hex, fpos_constant_delay w d i hB hd h1 h2, truncUInt_natCast]

/-- Before block `k` the half of the delay memory that block `k` does not write
holds the filtered block `k - 1`, or zeros when `k = 0`. -/
theorem afterBlocks_other_half (E : APFConvolver σ)
    (F : (Nat → ℚ) → Nat → Nat → Nat → ℚ → ℚ) (w0 : Convolver σ) (calls : Nat → BlockCall)
    (h0 : w0.delaypos = 0) (hz : w0.delay = fun _ => 0) (k t : Nat) :
    (Convolver.afterBlocks E F w0 calls k).delay (((k + 1) % 2) * w0.blocksize + t) =
      if k = 0 then 0 else Convolver.filteredBlock E F w0 calls (k - 1) t := by
  cases k with
  | zero => simp [Convolver.afterBlocks, hz]
  | succ j =>
    have e : (j + 1 + 1) % 2 = j % 2 := by omega
    rw [if_neg (Nat.succ_ne_zero j), Nat.add_sub_cancel, e]
    simp only [Convolver.filteredBlock, Convolver.atBlock, Convolver.afterBlocks]
    rw [released_delaypos, afterBlocks_delaypos E F w0 calls h0 j]
    rfl

/-- Low-quality mode, a worker with a zeroed delay memory and the write position
at 0.  For a block `k` whose previous-block delay and target delay are both the
integer `d ≤ blocksize`, and a sample `i` whose read position is computed
without rounding error, output sample `i` of block `k` is the filtered sample at
stream position `k * blocksize + i - d`, and 0 when that position is negative. -/
theorem lowquality_delay_of_exact (E : APFConvolver σ)
    (F : (Nat → ℚ) → Nat → Nat → Nat → ℚ → ℚ) (w0 : Convolver σ) (B : Nat)
    (hb0 : w0.blocksize = B) (hp0 : w0.delaypos = 0) (hz0 : w0.delay = fun _ => 0)
    (calls : Nat → BlockCall) (k d i : Nat) (hB : 0 < B) (hd : d ≤ B) (hi : i < B)
    (hlq : (calls k).hqproc = false)
    (hprev : (Convolver.afterBlocks E F w0 calls k).delay1 = d)
    (htarget : (Convolver.atBlock E F w0 calls k).outputdelay = d)
    (hex : Convolver.Process.fposDouble (Convolver.atBlock E F w0 calls k) i =
      Convolver.Process.fpos (Convolver.atBlock E F w0 calls k) i) :
    (Convolver.afterBlocks E F w0 calls (k + 1)).output i =
      if d ≤ k * B + i then Convolver.filteredStream E F w0 calls (k * B + i - d) else 0 := by
  have hAb : (Convolver.atBlock E F w0 calls k).blocksize = B := by
    rw [Convolver.atBlock, released_blocksize, afterBlocks_blocksize, hb0]
  have hAp : (Convolver.atBlock E F w0 calls k).delaypos = (k % 2) * B := by
    rw [Convolver.atBlock, released_delaypos, afterBlocks_delaypos E F w0 calls hp0, hb0]
  have hA1 : (Convolver.atBlock E F w0 calls k).delay1 = d := by
    rw [Convolver.atBlock, released_delay1]; exact hprev
  have hAq : (Convolver.atBlock E F w0 calls k).hqproc = false := by
    rw [Convolver.atBlock, released_hqproc]; exact hlq
  have hAd : (Convolver.atBlock E F w0 calls k).delay =
      (Convolver.afterBlocks E F w0 calls k).delay := by
    rw [Convolver.atBlock, released_delay]
  have hout : (Convolver.afterBlocks E F w0 calls (k + 1)).output i =
      (Convolver.Process.filtered E (Convolver.atBlock E F w0 calls k)).1
        (((k % 2) * B + B * 2 - d + i) % (B * 2)) := by
    have h := cycle_output_lowquality E F (Convolver.atBlock E F w0 calls k) d i
      (by rw [hAb]; exact hB) (by rw [hAb]; exact hd) hA1 htarget hAq (by rw [hAb]; exact hi) hex
    rw [hAb, hAp] at h
    exact h
  rw [hout]
  have hpar : k % 2 = 0 ∨ k % 2 = 1 := Nat.mod_two_eq_zero_or_one k
  by_cases hdi : d ≤ i
  · -- the sample read lies in the block just written
    have hcond : d ≤ k * B + i := le_trans hdi (Nat.le_add_left _ _)
    have hidx : ((k % 2) * B + B * 2 - d + i) % (B * 2) = (k % 2) * B + (i - d) := by
      have e : (k % 2) * B + B * 2 - d + i = ((k % 2) * B + (i - d)) + B * 2 := by omega
      rw [e, Nat.add_mod_right]
      apply Nat.mod_eq_of_lt
      rcases hpar with h | h <;> rw [h] <;> omega
    have hpos : k * B + i - d = (i - d) + k * B := by omega
    have hqr := (interleaved_index_iff B (i - d) (k * B + i - d) k (by omega)).mp hpos
    rw [hidx, if_pos hcond]
    simp only [Convolver.filteredStream, Convolver.filteredBlock, hb0, hqr.1, hqr.2, hAp]
  · -- the sample read lies in the other half: the previous block, or zeros
    have hlt : i < d := not_le.mp hdi
    have hidx : ((k % 2) * B + B * 2 - d + i) % (B * 2) = ((k + 1) % 2) * B + (B - d + i) := by
      rcases hpar with h | h
      · have h2 : (k + 1) % 2 = 1 := by omega
        rw [h, h2, Nat.zero_mul, Nat.zero_add, Nat.one_mul]
        have e : B * 2 - d + i = B + (B - d + i) := by omega
        rw [e]
        exact Nat.mod_eq_of_lt (by omega)
      · have h2 : (k + 1) % 2 = 0 := by omega
        rw [h, h2, Nat.zero_mul, Nat.zero_add, Nat.one_mul]
        have e : B + B * 2 - d + i = (B - d + i) + B * 2 := by omega
        rw [e, Nat.add_mod_right]
        exact Nat.mod_eq_of_lt (by omega)
    have hout2 : ¬ ((Convolver.atBlock E F w0 calls k).delaypos ≤ ((k + 1) % 2) * B + (B - d + i) ∧
        ((k + 1) % 2) * B + (B - d + i) <
          (Convolver.atBlock E F w0 calls k).delaypos +
            (Convolver.atBlock E F w0 calls k).blocksize) := by
      rw [hAp, hAb]
      rcases hpar with h | h
      · have h2 : (k + 1) % 2 = 1 := by omega
        rw [h, h2]; omega
      · have h2 : (k + 1) % 2 = 0 := by omega
        rw [h, h2]; omega
    rw [hidx, filtered_outside E _ _ hout2, hAd]
    have hoh := afterBlocks_other_half E F w0 calls hp0 hz0 k (B - d + i)
    rw [hb0] at hoh
    rw [hoh]
    cases k with
    | zero =>
      have hcond : ¬ d ≤ 0 * B + i := by omega
      rw [if_pos rfl, if_neg hcond]
    | succ j =>
      have hcond : d ≤ (j + 1) * B + i := by
        have : (j + 1) * B = j * B + B := by ring
        omega
      have hpos : (j + 1) * B + i - d = (B - d + i) + j * B := by
        have : (j + 1) * B = j * B + B := by ring
        omega
      have hqr := (interleaved_index_iff B (B - d + i) ((j + 1) * B + i - d) j (by omega)).mp hpos
      rw [if_neg (Nat.succ_ne_zero j), if_pos hcond, Nat.add_sub_cancel]
      simp only [Convolver.filteredStream, hb0, hqr.1, hqr.2]

/-- For a block size `2 ^ m` with `m ≤ 25` the delay stage in low-quality mode
delays by the assigned delay.  A worker with a zeroed delay memory and the write
position at 0; for a block `k` whose previous-block delay and target delay are
both the integer `d ≤ blocksize`, output sample `i` of block `k` is the filtered
sample at stream position `k * blocksize + i - d`, and 0 when that position is
negative. -/
theorem lowquality_delay_pow2 (E : APFConvolver σ)
    (F : (Nat → ℚ) → Nat → Nat → Nat → ℚ → ℚ) (w0 : Convolver σ) (m : Nat)
    (hb0 : w0.blocksize = 2 ^ m) (hp0 : w0.delaypos = 0) (hz0 : w0.delay = fun _ => 0)
    (calls : Nat → BlockCall) (k d : Nat) (hm : m ≤ 25)
    (hd : d ≤ 2 ^ m) (hlq : (calls k).hqproc = false)
    (hprev : (Convolver.afterBlocks E F w0 calls k).delay1 = d)
    (htarget : (Convolver.atBlock E F w0 calls k).outputdelay = d) :
    ∀ i, i < 2 ^ m →
      (Convolver.afterBlocks E F w0 calls (k + 1)).output i =
        if d ≤ k * 2 ^ m + i then Convolver.filteredStream E F w0 calls (k * 2 ^ m + i - d)
        else 0 := by
  intro i hi
  have hBpos : 0 < 2 ^ m := Nat.pos_pow_of_pos m (by norm_num)
  have hAb : (Convolver.atBlock E F w0 calls k).blocksize = 2 ^ m := by
    rw [Convolver.atBlock, released_blocksize, afterBlocks_blocksize, hb0]
  have hAp : (Convolver.atBlock E F w0 calls k).delaypos = (k % 2) * 2 ^ m := by
    rw [Convolver.atBlock, released_delaypos, afterBlocks_delaypos E F w0 calls hp0, hb0]
  have hA1 : (Convolver.atBlock E F w0 calls k).delay1 = d := by
    rw [Convolver.atBlock, released_delay1]
    exact hprev
  have hple : (Convolver.atBlock E F w0 calls k).delaypos ≤
      (Convolver.atBlock E F w0 calls k).blocksize := by
    rw [hAp, hAb]
    rcases Nat.mod_two_eq_zero_or_one k with h | h <;> rw [h] <;> omega
  exact lowquality_delay_of_exact E F w0 (2 ^ m) hb0 hp0 hz0 calls k d i hBpos hd hi hlq hprev
    htarget
    (fposDouble_pow2 _ m d i hAb hm (by rw [hAb]; exact hd) hA1 htarget (by rw [hAb]; exact hi)
      hple)

theorem released_scale (w : Convolver σ) (c : BlockCall) : (w.released c).scale = w.scale := by
  unfold Convolver.released
  rcases c.response with _ | ⟨f, d⟩
  · rfl
  · simp only [Convolver.StartConvolution, Convolver.SetResponse]
    split_ifs <;> rfl

theorem released_input (w : Convolver σ) (c : BlockCall) (i : Nat) (hi : i < w.blocksize) :
    (w.released c).input i = c.mem (c.input + i * c.inputchannels) := by
  unfold Convolver.released
  rcases c.response with _ | ⟨f, d⟩
  · exact StartConvolution_input w _ _ _ _ i hi
  · exact StartConvolution_input _ _ _ _ _ i (by rw [SetResponse_blocksize]; exact hi)

theorem afterBlocks_scale (E : APFConvolver σ) (F : (Nat → ℚ) → Nat → Nat → Nat → ℚ → ℚ)
    (w0 : Convolver σ) (calls : Nat → BlockCall) (k : Nat) :
    (Convolver.afterBlocks E F w0 calls k).scale = w0.scale := by
  induction k with
  | zero => rfl
  | succ k ih =>
    simp only [Convolver.afterBlocks]
    show (Convolver.released _ _).scale = _
    rw [released_scale, ih]

/-- With the engine `unitEngine` the filtered block `k` is the input block `k`
times the scale of the worker. -/
theorem filteredBlock_unitEngine (F : (Nat → ℚ) → Nat → Nat → Nat → ℚ → ℚ)
    (w0 : Convolver (Nat → ℚ)) (calls : Nat → BlockCall) (k i : Nat) (hi : i < w0.blocksize) :
    Convolver.filteredBlock unitEngine F w0 calls k i =
      w0.scale * (calls k).mem ((calls k).input + i * (calls k).inputchannels) := by
  have hb : (Convolver.atBlock unitEngine F w0 calls k).blocksize = w0.blocksize := by
    rw [Convolver.atBlock, released_blocksize, afterBlocks_blocksize]
  have hin : (Convolver.atBlock unitEngine F w0 calls k).delaypos ≤
        (Convolver.atBlock unitEngine F w0 calls k).delaypos + i ∧
      (Convolver.atBlock unitEngine F w0 calls k).delaypos + i <
        (Convolver.atBlock unitEngine F w0 calls k).delaypos +
          (Convolver.atBlock unitEngine F w0 calls k).blocksize :=
    ⟨Nat.le_add_right _ _, by omega⟩
  have hq : unitEngine.queues_empty
      (Convolver.Process.update unitEngine (Convolver.atBlock unitEngine F w0 calls k)).2 = true :=
    rfl
  have h := show Convolver.filteredBlock unitEngine F w0 calls k i =
      (Convolver.Process.first unitEngine (Convolver.atBlock unitEngine F w0 calls k)).1 i by
    simp [Convolver.filteredBlock, Convolver.Process.filtered, hq, hin]
  rw [h]
  show (Convolver.atBlock unitEngine F w0 calls k).scale *
    (Convolver.atBlock unitEngine F w0 calls k).input i = _
  rw [Convolver.atBlock, released_scale, afterBlocks_scale,
    released_input _ _ i (by rw [afterBlocks_blocksize]; exact hi)]

/-- At block size 9, write position 9 and delay 8 before and after, the read
position of sample 8 is computed as the double just below 27: the weights
`8 / 9` and `1 - 8 / 9` are rounded, and so are both products and their sum. -/
theorem fposDouble_block_nine (w : Convolver σ) (hB : w.blocksize = 9) (hp : w.delaypos = 9)
    (h1 : w.delay1 = 8) (h2 : w.outputdelay = 8) :
    Convolver.Process.fposDouble w 8 = 7599824371187711 * 2 ^ (-48 : ℤ) := by
  have e1 : (((9 + 9 * 2 : Nat) : ℚ)) - 8 = 19 := by norm_num
  have e2 : (((9 + 9 * 2 + 9 : Nat) : ℚ)) - 8 = 28 := by norm_num
  have e3 : (((8 : Nat) : ℚ)) / ((9 : Nat) : ℚ) = 8 / 9 := by norm_num
  have r1 : roundDouble (19 : ℚ) = 5348024557502464 * 2 ^ (-48 : ℤ) :=
    roundDouble_eq 19 (-48) 5348024557502464 (by norm_num) (by norm_num)
      (by rw [abs_lt]; constructor <;> norm_num)
  have r2 : roundDouble (28 : ℚ) = 7881299347898368 * 2 ^ (-48 : ℤ) :=
    roundDouble_eq 28 (-48) 7881299347898368 (by norm_num) (by norm_num)
      (by rw [abs_lt]; constructor <;> norm_num)
  have rb : roundDouble (8 / 9 : ℚ) = 8006399337547548 * 2 ^ (-53 : ℤ) :=
    roundDouble_eq (8 / 9) (-53) 8006399337547548 (by norm_num) (by norm_num)
      (by rw [abs_lt]; constructor <;> norm_num)
  have ra : roundDouble (1 - 8006399337547548 * 2 ^ (-53 : ℤ) : ℚ) =
      8006399337547552 * 2 ^ (-56 : ℤ) :=
    roundDouble_eq _ (-56) 8006399337547552 (by norm_num) (by norm_num)
      (by rw [abs_lt]; constructor <;> norm_num)
  have rt1 : roundDouble
      (8006399337547552 * 2 ^ (-56 : ℤ) * (5348024557502464 * 2 ^ (-48 : ℤ)) : ℚ) =
      4753799606668859 * 2 ^ (-51 : ℤ) :=
    roundDouble_eq _ (-51) 4753799606668859 (by norm_num) (by norm_num)
      (by rw [abs_lt]; constructor <;> norm_num)
  have rt2 : roundDouble
      (8006399337547548 * 2 ^ (-53 : ℤ) * (7881299347898368 * 2 ^ (-48 : ℤ)) : ℚ) =
      7005599420354104 * 2 ^ (-48 : ℤ) :=
    roundDouble_tie _ (-48) 7005599420354104 (by norm_num) (by norm_num) (by norm_num)
      (by decide)
  have rs : roundDouble
      (4753799606668859 * 2 ^ (-51 : ℤ) + 7005599420354104 * 2 ^ (-48 : ℤ) : ℚ) =
      7599824371187711 * 2 ^ (-48 : ℤ) :=
    roundDouble_eq _ (-48) 7599824371187711 (by norm_num) (by norm_num)
      (by rw [abs_lt]; constructor <;> norm_num)
  simp only [Convolver.Process.fposDouble, hB, hp, h1, h2]
  rw [e1, e2, e3, r1, r2, rb, ra, rt1, rt2, rs]

/-- The double just below 27 is truncated to 26. -/
theorem truncUInt_below_27 : truncUInt (7599824371187711 * 2 ^ (-48 : ℤ)) = 26 := by
  rw [truncUInt_of_nonneg _ (by norm_num)]
  have : ⌊(7599824371187711 * 2 ^ (-48 : ℤ) : ℚ)⌋ = 26 := by
    rw [Int.floor_eq_iff]
    constructor <;> norm_num
  rw [this]
  rfl

/-- C10 fails at block size 9.  A worker fresh from its constructor is given
delay 8 on every block, in low-quality mode; block 0 carries 101, ..., 109 and
block 1 carries 201, ..., 209, and the engine returns each block as it is, so
the filtered stream is 101, ..., 109, 201, ....  Block 1 satisfies the
hypotheses of the claim with `d = 8`, and the exact read position of its sample
8 is 27.  The position the code computes is the double just below 27, the cast
truncates it to 26, and the index read is 8 instead of 9: output sample 8 of
block 1 is 109, the filtered sample at stream position 8, where the claim
promises the one at position `1 * 9 + 8 - 8 = 9`, which is 201. -/
theorem Process_lowquality_reads_early :
    (nineWorker.blocksize = 9 ∧ nineWorker.delaypos = 0 ∧ (nineWorker.delay = fun _ => 0) ∧
      8 ≤ 9 ∧ (nineCall 1).hqproc = false ∧
      (Convolver.afterBlocks unitEngine nearestSample nineWorker nineCall 1).delay1 =
        ((8 : Nat) : ℚ) ∧
      (Convolver.atBlock unitEngine nearestSample nineWorker nineCall 1).outputdelay =
        ((8 : Nat) : ℚ)) ∧
    Convolver.Process.fpos (Convolver.atBlock unitEngine nearestSample nineWorker nineCall 1) 8 =
      27 ∧
    Convolver.Process.fposDouble
      (Convolver.atBlock unitEngine nearestSample nineWorker nineCall 1) 8 = 27 - 1 / 2 ^ 48 ∧
    Convolver.Process.lowQualityIndex
      (Convolver.atBlock unitEngine nearestSample nineWorker nineCall 1) 8 = 8 ∧
    (Convolver.afterBlocks unitEngine nearestSample nineWorker nineCall (1 + 1)).output 8 = 109 ∧
    Convolver.filteredStream unitEngine nearestSample nineWorker nineCall (1 * 9 + 8 - 8) = 201 ∧
    Convolver.filteredStream unitEngine nearestSample nineWorker nineCall 8 = 109 := by
  have h1 : (Convolver.afterBlocks unitEngine nearestSample nineWorker nineCall 1).delay1 =
      ((8 : Nat) : ℚ) := by
    simp [Convolver.afterBlocks, Convolver.Process.cycle, Convolver.released, nineCall,
      Convolver.StartConvolution, SetResponse_outputdelay]
  have h2 : (Convolver.atBlock unitEngine nearestSample nineWorker nineCall 1).outputdelay =
      ((8 : Nat) : ℚ) := by
    simp [Convolver.atBlock, Convolver.released, nineCall,
      Convolver.StartConvolution, SetResponse_outputdelay]
  have hAb : (Convolver.atBlock unitEngine nearestSample nineWorker nineCall 1).blocksize = 9 := by
    rw [Convolver.atBlock, released_blocksize, afterBlocks_blocksize]; rfl
  have hAp : (Convolver.atBlock unitEngine nearestSample nineWorker nineCall 1).delaypos = 9 := by
    rw [Convolver.atBlock, released_delaypos,
      afterBlocks_delaypos unitEngine nearestSample nineWorker nineCall rfl]
    rfl
  have hA1 : (Convolver.atBlock unitEngine nearestSample nineWorker nineCall 1).delay1 = 8 := by
    rw [Convolver.atBlock, released_delay1, h1]; norm_num
  have hA2 : (Convolver.atBlock unitEngine nearestSample nineWorker nineCall 1).outputdelay = 8 := by
    rw [h2]; norm_num
  have hAq : (Convolver.atBlock unitEngine nearestSample nineWorker nineCall 1).hqproc = false := by
    rw [Convolver.atBlock, released_hqproc]; rfl
  have hidx : Convolver.Process.lowQualityIndex
      (Convolver.atBlock unitEngine nearestSample nineWorker nineCall 1) 8 = 8 := by
    unfold Convolver.Process.lowQualityIndex
    rw [fposDouble_block_nine _ hAb hAp hA1 hA2, truncUInt_below_27, hAb]
  have hs8 : Convolver.filteredStream unitEngine nearestSample nineWorker nineCall 8 = 109 := by
    have e : Convolver.filteredStream unitEngine nearestSample nineWorker nineCall 8 =
        Convolver.filteredBlock unitEngine nearestSample nineWorker nineCall 0 8 := rfl
    rw [e, filteredBlock_unitEngine nearestSample nineWorker nineCall 0 8 (by decide)]
    simp [nineCall, nineWorker, Convolver.new]
    norm_num
  have hs9 : Convolver.filteredStream unitEngine nearestSample nineWorker nineCall
      (1 * 9 + 8 - 8) = 201 := by
    have e : Convolver.filteredStream unitEngine nearestSample nineWorker nineCall (1 * 9 + 8 - 8) =
        Convolver.filteredBlock unitEngine nearestSample nineWorker nineCall 1 0 := rfl
    rw [e, filteredBlock_unitEngine nearestSample nineWorker nineCall 1 0 (by decide)]
    simp [nineCall, nineWorker, Convolver.new]
    norm_num
  refine ⟨⟨rfl, rfl, rfl, by decide, rfl, h1, h2⟩, ?_, ?_, hidx, ?_, hs9, hs8⟩
  · rw [fpos_constant_delay _ 8 8 (by rw [hAb]; decide) (by rw [hAb]; decide)
      (by rw [hA1]; norm_num) (by rw [hA2]; norm_num), hAb, hAp]
    norm_num
  · rw [fposDouble_block_nine _ hAb hAp hA1 hA2]
    norm_num
  · have e : (Convolver.afterBlocks unitEngine nearestSample nineWorker nineCall (1 + 1)).output 8 =
        (Convolver.Process.cycle unitEngine nearestSample
          (Convolver.atBlock unitEngine nearestSample nineWorker nineCall 1)).output 8 := rfl
    rw [e, cycle_output_lowQualityIndex _ _ _ 8 hAq (by rw [hAb]; decide), hidx,
      filtered_outside _ _ 8 (by rw [hAp, hAb]; decide), Convolver.atBlock, released_delay]
    have e2 : (Convolver.afterBlocks unitEngine nearestSample nineWorker nineCall 1).delay 8 =
        Convolver.filteredStream unitEngine nearestSample nineWorker nineCall 8 := rfl
    rw [e2, hs8]


/-! ## Theorems: the delay ramp -/

theorem fpos_eq_ramp (w : Convolver σ) (i : Nat) :
    Convolver.Process.fpos w i =
      (1 - w.rampB i) * Convolver.Process.fpos1 w + w.rampB i * Convolver.Process.fpos2 w := rfl

theorem rampB_zero (w : Convolver σ) : w.rampB 0 = 0 := by
  simp [Convolver.rampB]

theorem rampB_nonneg (w : Convolver σ) (i : Nat) : 0 ≤ w.rampB i := by
  unfold Convolver.rampB
  positivity

theorem rampB_lt_one (w : Convolver σ) (i : Nat) (hi : i < w.blocksize) : w.rampB i < 1 := by
  have hBq : (0 : ℚ) < (w.blocksize : ℚ) := by exact_mod_cast (lt_of_le_of_lt (Nat.zero_le i) hi)
  unfold Convolver.rampB
  rw [div_lt_one hBq]
  exact_mod_cast hi

theorem rampB_strictMono (w : Convolver σ) (hB : 0 < w.blocksize) (i j : Nat) (hij : i < j) :
    w.rampB i < w.rampB j := by
  have hBq : (0 : ℚ) < (w.blocksize : ℚ) := by exact_mod_cast hB
  unfold Convolver.rampB
  apply div_lt_div_of_pos_right _ hBq
  exact_mod_cast hij

/-- The block left in the delay memory when the queues are not empty. -/
theorem filtered_crossfade (E : APFConvolver σ) (w : Convolver σ) (i : Nat)
    (hi : i < w.blocksize) (hq : E.queues_empty (Convolver.Process.update E w).2 = false) :
    (Convolver.Process.filtered E w).1 (w.delaypos + i) =
      (Convolver.Process.first E w).1 i * (1 - w.rampB i) +
        w.rampB i * (Convolver.Process.second E w).1 i := by
  have hin : w.delaypos ≤ w.delaypos + i ∧ w.delaypos + i < w.delaypos + w.blocksize :=
    ⟨Nat.le_add_right _ _, by omega⟩
  simp only [Convolver.Process.filtered, Convolver.Process.second, hq, Bool.not_false, if_true,
    hin, and_self, Nat.add_sub_cancel_left]

/-- The block left in the delay memory when the queues are empty: the first
convolution, without crossfade. -/
theorem filtered_plain (E : APFConvolver σ) (w : Convolver σ) (i : Nat)
    (hi : i < w.blocksize) (hq : E.queues_empty (Convolver.Process.update E w).2 = true) :
    (Convolver.Process.filtered E w).1 (w.delaypos + i) = (Convolver.Process.first E w).1 i := by
  have hin : w.delaypos ≤ w.delaypos + i ∧ w.delaypos + i < w.delaypos + w.blocksize :=
    ⟨Nat.le_add_right _ _, by omega⟩
  simp [Convolver.Process.filtered, hq, hin]

/-- C12: when the pass crossfades (the queues are not empty after the filter
update), sample `i < blocksize` of the block is
`(1 - i/blocksize) * first[i] + (i/blocksize) * second[i]`; both weights lie in
[0, 1] and sum to 1; the weight of the second result strictly increases with `i`
and that of the first strictly decreases; sample 0 is `first[0]`. -/
theorem Process_crossfade (E : APFConvolver σ) (w : Convolver σ) (i : Nat)
    (hB : 0 < w.blocksize) (hi : i < w.blocksize)
    (hq : E.queues_empty (Convolver.Process.update E w).2 = false) :
    (Convolver.Process.filtered E w).1 (w.delaypos + i) =
      (1 - (i : ℚ) / (w.blocksize : ℚ)) * (Convolver.Process.first E w).1 i +
        ((i : ℚ) / (w.blocksize : ℚ)) * (Convolver.Process.second E w).1 i ∧
    (0 ≤ (i : ℚ) / (w.blocksize : ℚ) ∧ (i : ℚ) / (w.blocksize : ℚ) ≤ 1) ∧
    (0 ≤ 1 - (i : ℚ) / (w.blocksize : ℚ) ∧ 1 - (i : ℚ) / (w.blocksize : ℚ) ≤ 1) ∧
    (1 - (i : ℚ) / (w.blocksize : ℚ)) + (i : ℚ) / (w.blocksize : ℚ) = 1 ∧
    (∀ j : Nat, i < j →
      (i : ℚ) / (w.blocksize : ℚ) < (j : ℚ) / (w.blocksize : ℚ) ∧
      1 - (j : ℚ) / (w.blocksize : ℚ) < 1 - (i : ℚ) / (w.blocksize : ℚ)) ∧
    (Convolver.Process.filtered E w).1 (w.delaypos + 0) = (Convolver.Process.first E w).1 0 := by
  have h0 := rampB_nonneg w i
  have h1 := rampB_lt_one w i hi
  unfold Convolver.rampB at h0 h1
  refine ⟨?_, ⟨h0, le_of_lt h1⟩, ⟨by linarith, by linarith⟩, by ring, ?_, ?_⟩
  · rw [filtered_crossfade E w i hi hq, Convolver.rampB]
    ring
  · intro j hij
    have h := rampB_strictMono w hB i j hij
    unfold Convolver.rampB at h
    exact ⟨h, by linarith⟩
  · rw [filtered_crossfade E w 0 hB hq, rampB_zero]
    ring

/-! ## Theorems: the low-quality index -/

theorem fpos1_nonneg (w : Convolver σ) (h : w.delay1 ≤ ((w.blocksize * 2 : Nat) : ℚ)) :
    0 ≤ Convolver.Process.fpos1 w := by
  unfold Convolver.Process.fpos1
  have hp : (0 : ℚ) ≤ (w.delaypos : ℚ) := Nat.cast_nonneg _
  push_cast at h ⊢
  linarith

theorem fpos2_nonneg (w : Convolver σ) (h : w.outputdelay ≤ ((w.blocksize * 2 : Nat) : ℚ)) :
    0 ≤ Convolver.Process.fpos2 w := by
  unfold Convolver.Process.fpos2
  have hp : (0 : ℚ) ≤ (w.delaypos : ℚ) := Nat.cast_nonneg _
  have hb : (0 : ℚ) ≤ (w.blocksize : ℚ) := Nat.cast_nonneg _
  push_cast at h ⊢
  linarith

/-- The read position as the code computes it is non-negative when both delays
are at most `2 * blocksize`: rounding to `double` keeps the weights in `[0, 1]`
and every term non-negative. -/
theorem fposDouble_nonneg (w : Convolver σ) (i : Nat) (hB : 0 < w.blocksize)
    (hi : i < w.blocksize) (h1 : w.delay1 ≤ ((w.blocksize * 2 : Nat) : ℚ))
    (h2 : w.outputdelay ≤ ((w.blocksize * 2 : Nat) : ℚ)) :
    0 ≤ Convolver.Process.fposDouble w i := by
  have hBq : (0 : ℚ) < (w.blocksize : ℚ) := by exact_mod_cast hB
  have hq0 : (0 : ℚ) ≤ (i : ℚ) / (w.blocksize : ℚ) := div_nonneg (Nat.cast_nonneg _) (le_of_lt hBq)
  have hq1 : (i : ℚ) / (w.blocksize : ℚ) ≤ 1 := by
    rw [div_le_one hBq]
    exact_mod_cast le_of_lt hi
  have hb0 := roundDouble_nonneg _ hq0
  have hb1 := roundDouble_le_one _ hq0 hq1
  have ha0 : 0 ≤ roundDouble (1 - roundDouble ((i : ℚ) / (w.blocksize : ℚ))) :=
    roundDouble_nonneg _ (by linarith)
  have hp : (0 : ℚ) ≤ (w.delaypos : ℚ) := Nat.cast_nonneg _
  have hb : (0 : ℚ) ≤ (w.blocksize : ℚ) := Nat.cast_nonneg _
  have hf1 : 0 ≤ roundDouble (((w.delaypos + w.blocksize * 2 : Nat) : ℚ) - w.delay1) := by
    apply roundDouble_nonneg
    push_cast at h1 ⊢
    linarith
  have hf2 : 0 ≤ roundDouble
      (((w.delaypos + w.blocksize * 2 + w.blocksize : Nat) : ℚ) - w.outputdelay) := by
    apply roundDouble_nonneg
    push_cast at h2 ⊢
    linarith
  simp only [Convolver.Process.fposDouble]
  exact roundDouble_nonneg _ (add_nonneg (roundDouble_nonneg _ (mul_nonneg ha0 hf1))
    (roundDouble_nonneg _ (mul_nonneg hb0 hf2)))

/-- C16: in low-quality mode, for previous and target delays in
`[0, 2 * blocksize]` and `i < blocksize`, the read position `pos(i)` is
non-negative, both as the exact ramp and as the double the code computes for it
(`fposDouble`); output sample `i` is the delay memory at the index used, which is
`floor(pos(i)) mod (2 * blocksize)` of the computed position, and that index is
below `2 * blocksize`. -/
theorem Process_lowquality_index (E : APFConvolver σ)
    (F : (Nat → ℚ) → Nat → Nat → Nat → ℚ → ℚ) (w : Convolver σ) (i : Nat)
    (hB : 0 < w.blocksize) (hi : i < w.blocksize) (hq : w.hqproc = false)
    (h1 : 0 ≤ w.delay1 ∧ w.delay1 ≤ ((w.blocksize * 2 : Nat) : ℚ))
    (h2 : 0 ≤ w.outputdelay ∧ w.outputdelay ≤ ((w.blocksize * 2 : Nat) : ℚ)) :
    0 ≤ Convolver.Process.fpos w i ∧
    0 ≤ Convolver.Process.fposDouble w i ∧
    (Convolver.Process.cycle E F w).output i =
      (Convolver.Process.filtered E w).1 (Convolver.Process.lowQualityIndex w i) ∧
    ((Convolver.Process.lowQualityIndex w i : Nat) : ℤ) =
      ⌊Convolver.Process.fposDouble w i⌋ % ((w.blocksize * 2 : Nat) : ℤ) ∧
    Convolver.Process.lowQualityIndex w i < w.blocksize * 2 := by
  have hb0 := rampB_nonneg w i
  have hb1 := rampB_lt_one w i hi
  have hf1 := fpos1_nonneg w h1.2
  have hf2 := fpos2_nonneg w h2.2
  have hpos : 0 ≤ Convolver.Process.fpos w i := by
    rw [fpos_eq_ramp]
    have ha : 0 ≤ 1 - w.rampB i := by linarith
    exact add_nonneg (mul_nonneg ha hf1) (mul_nonneg hb0 hf2)
  have hposD := fposDouble_nonneg w i hB hi h1.2 h2.2
  refine ⟨hpos, hposD, cycle_output_lowQualityIndex E F w i hq hi, ?_, ?_⟩
  · unfold Convolver.Process.lowQualityIndex
    have hfl : 0 ≤ ⌊Convolver.Process.fposDouble w i⌋ := Int.floor_nonneg.mpr hposD
    rw [truncUInt_of_nonneg _ hposD, Int.natCast_mod, Int.toNat_of_nonneg hfl]
  · unfold Convolver.Process.lowQualityIndex
    exact Nat.mod_lt _ (by omega)

/-- Witness of C12 on `demoReleased` with an engine whose queues are not empty:
sample 1 of block size 4. -/
theorem Process_crossfade_witness :
    (0 < demoReleased.blocksize ∧ 1 < demoReleased.blocksize ∧
      fadeEngine.queues_empty (Convolver.Process.update fadeEngine demoReleased).2 = false) ∧
    (Convolver.Process.filtered fadeEngine demoReleased).1 (demoReleased.delaypos + 1) =
      (1 - ((1 : Nat) : ℚ) / (demoReleased.blocksize : ℚ)) *
          (Convolver.Process.first fadeEngine demoReleased).1 1 +
        (((1 : Nat) : ℚ) / (demoReleased.blocksize : ℚ)) *
          (Convolver.Process.second fadeEngine demoReleased).1 1 :=
  ⟨⟨by decide, by decide, rfl⟩,
    (Process_crossfade fadeEngine demoReleased 1 (by decide) (by decide) rfl).1⟩

theorem demoReleased_delay1 : demoReleased.delay1 = 0 := by
  simp [demoReleased, released_delay1, demoWorker, Convolver.new]

theorem demoReleased_outputdelay : demoReleased.outputdelay = 2 := by
  simp [demoReleased, Convolver.released, demoCall, Convolver.StartConvolution,
    SetResponse_outputdelay]

theorem demoReleased_blocksize : demoReleased.blocksize = 4 := by
  simp [demoReleased, released_blocksize, demoWorker, Convolver.new]

/-- Witness of C16 on `demoReleased`: previous delay 0, target delay 2, block
size 4, sample 3. -/
theorem Process_lowquality_index_witness :
    (0 < demoReleased.blocksize ∧ 3 < demoReleased.blocksize ∧ demoReleased.hqproc = false ∧
      (0 ≤ demoReleased.delay1 ∧ demoReleased.delay1 ≤ ((demoReleased.blocksize * 2 : Nat) : ℚ)) ∧
      (0 ≤ demoReleased.outputdelay ∧
        demoReleased.outputdelay ≤ ((demoReleased.blocksize * 2 : Nat) : ℚ))) ∧
    (0 ≤ Convolver.Process.fpos demoReleased 3 ∧
      0 ≤ Convolver.Process.fposDouble demoReleased 3 ∧
      Convolver.Process.lowQualityIndex demoReleased 3 < demoReleased.blocksize * 2) := by
  have h1 : 0 ≤ demoReleased.delay1 ∧
      demoReleased.delay1 ≤ ((demoReleased.blocksize * 2 : Nat) : ℚ) := by
    rw [demoReleased_delay1, demoReleased_blocksize]; norm_num
  have h2 : 0 ≤ demoReleased.outputdelay ∧
      demoReleased.outputdelay ≤ ((demoReleased.blocksize * 2 : Nat) : ℚ) := by
    rw [demoReleased_outputdelay, demoReleased_blocksize]; norm_num
  have h := Process_lowquality_index unitEngine nearestSample demoReleased 3 (by decide)
    (by decide) rfl h1 h2
  exact ⟨⟨by decide, by decide, rfl, h1, h2⟩, h.1, h.2.1, h.2.2.2.2⟩

/-! ## Theorems: the write position of the delay memory -/

/-- C19: for a worker fresh from its constructor with `blocksize > 0`, after any
number `k` of passes the write position `delaypos` is `(k % 2) * blocksize`: a
multiple of `blocksize`, either 0 or `blocksize`, and different from the one of
the pass before; so `delaypos + blocksize ≤ delaylen = 2 * blocksize`, the pass
changes the delay memory only below `delaylen`, and in the next pass the half
not being written still holds the block written by this pass. -/
theorem Process_write_cursor (E : APFConvolver σ)
    (F : (Nat → ℚ) → Nat → Nat → Nat → ℚ → ℚ) (spawn : Nat → Option Nat) (idx B : Nat)
    (eng : σ) (scale : ℚ) (calls : Nat → BlockCall) (k : Nat) (hB : 0 < B) :
    (Convolver.afterBlocks E F (Convolver.new spawn idx B eng scale) calls k).delaypos =
      (k % 2) * B ∧
    B ∣ (Convolver.afterBlocks E F (Convolver.new spawn idx B eng scale) calls k).delaypos ∧
    ((Convolver.afterBlocks E F (Convolver.new spawn idx B eng scale) calls k).delaypos = 0 ∨
      (Convolver.afterBlocks E F (Convolver.new spawn idx B eng scale) calls k).delaypos = B) ∧
    (Convolver.afterBlocks E F (Convolver.new spawn idx B eng scale) calls (k + 1)).delaypos ≠
      (Convolver.afterBlocks E F (Convolver.new spawn idx B eng scale) calls k).delaypos ∧
    (Convolver.afterBlocks E F (Convolver.new spawn idx B eng scale) calls k).delaypos + B
      ≤ B * 2 ∧
    (∀ p,
      (Convolver.Process.filtered E
          (Convolver.atBlock E F (Convolver.new spawn idx B eng scale) calls k)).1 p ≠
        (Convolver.atBlock E F (Convolver.new spawn idx B eng scale) calls k).delay p →
      p < B * 2) ∧
    (∀ t, t < B →
      (Convolver.Process.filtered E
          (Convolver.atBlock E F (Convolver.new spawn idx B eng scale) calls (k + 1))).1
          ((k % 2) * B + t) =
        Convolver.filteredBlock E F (Convolver.new spawn idx B eng scale) calls k t) := by
  generalize hw0 : Convolver.new spawn idx B eng scale = w0
  have hb0 : w0.blocksize = B := by rw [← hw0]; rfl
  have hp0 : w0.delaypos = 0 := by rw [← hw0]; rfl
  have hz0 : w0.delay = fun _ => 0 := by rw [← hw0]; rfl
  have hpos : ∀ n, (Convolver.afterBlocks E F w0 calls n).delaypos = (n % 2) * B := by
    intro n
    rw [afterBlocks_delaypos E F w0 calls hp0 n, hb0]
  have hAb : ∀ n, (Convolver.atBlock E F w0 calls n).blocksize = B := by
    intro n
    rw [Convolver.atBlock, released_blocksize, afterBlocks_blocksize, hb0]
  have hAp : ∀ n, (Convolver.atBlock E F w0 calls n).delaypos = (n % 2) * B := by
    intro n
    rw [Convolver.atBlock, released_delaypos, hpos]
  have hpar : k % 2 = 0 ∨ k % 2 = 1 := Nat.mod_two_eq_zero_or_one k
  refine ⟨hpos k, ?_, ?_, ?_, ?_, ?_, ?_⟩
  · rw [hpos k]
    exact Dvd.intro_left _ rfl
  · rw [hpos k]
    rcases hpar with h | h <;> rw [h] <;> simp
  · rw [hpos k, hpos (k + 1)]
    rcases hpar with h | h
    · have h2 : (k + 1) % 2 = 1 := by omega
      rw [h, h2]; omega
    · have h2 : (k + 1) % 2 = 0 := by omega
      rw [h, h2]; omega
  · rw [hpos k]
    rcases hpar with h | h <;> rw [h] <;> omega
  · intro p hne
    by_contra hp
    apply hne
    apply filtered_outside
    rw [hAp, hAb]
    rcases hpar with h | h <;> rw [h] <;> omega
  · intro t ht
    have hout : ¬ ((Convolver.atBlock E F w0 calls (k + 1)).delaypos ≤ (k % 2) * B + t ∧
        (k % 2) * B + t < (Convolver.atBlock E F w0 calls (k + 1)).delaypos +
          (Convolver.atBlock E F w0 calls (k + 1)).blocksize) := by
      rw [hAp, hAb]
      rcases hpar with h | h
      · have h2 : (k + 1) % 2 = 1 := by omega
        rw [h, h2]; omega
      · have h2 : (k + 1) % 2 = 0 := by omega
        rw [h, h2]; omega
    rw [filtered_outside E _ _ hout, Convolver.atBlock, released_delay]
    have hoh := afterBlocks_other_half E F w0 calls hp0 hz0 (k + 1) t
    have e : (k + 1 + 1) % 2 = k % 2 := by omega
    rw [e, hb0, if_neg (Nat.succ_ne_zero k), Nat.add_sub_cancel] at hoh
    exact hoh

/-- Witness of C19: block size 4, after 3 passes driven by `demoCall`. -/
theorem Process_write_cursor_witness :
    0 < 4 ∧
    (Convolver.afterBlocks unitEngine nearestSample
      (Convolver.new (fun i => some (i + 1)) 0 4 (fun _ : Nat => (0 : ℚ)) 1)
      (fun _ => demoCall) 3).delaypos = (3 % 2) * 4 :=
  ⟨by decide,
    (Process_write_cursor unitEngine nearestSample (fun i => some (i + 1)) 0 4
      (fun _ : Nat => (0 : ℚ)) 1 (fun _ => demoCall) 3 (by decide)).1⟩

/-! ## Theorems: the filter update of the pass -/

theorem installedFilter_append (l1 l2 : List EngineCall) :
    installedFilter (l1 ++ l2) =
      l2.foldl
        (fun acc c =>
          match c with
          | EngineCall.set_filter f => some f
          | _ => acc)
        (installedFilter l1) := by
  simp [installedFilter, List.foldl_append]

/-- The log after the first convolution of a pass. -/
theorem logged_first (E : APFConvolver σ) (w : Convolver (σ × List EngineCall)) :
    (Convolver.Process.first E.logged w).2.2 =
      w.convolver.2 ++ [EngineCall.add_block, EngineCall.convolve] := by
  simp [Convolver.Process.first, APFConvolver.logged]

/-- The log at the end of a pass is the log after the filter update followed by
nothing or by a rotation and the second convolution. -/
theorem logged_cycle (E : APFConvolver σ) (F : (Nat → ℚ) → Nat → Nat → Nat → ℚ → ℚ)
    (w : Convolver (σ × List EngineCall)) :
    ∃ rest, (Convolver.Process.cycle E.logged F w).convolver.2 =
        (Convolver.Process.update E.logged w).2.2 ++ rest ∧
      (rest = [] ∨ rest = [EngineCall.rotate_queues, EngineCall.convolve]) := by
  by_cases hq : E.logged.queues_empty (Convolver.Process.update E.logged w).2 = true
  · refine ⟨[], ?_, Or.inl rfl⟩
    simp [Convolver.Process.cycle, Convolver.Process.filtered, hq]
  · refine ⟨[EngineCall.rotate_queues, EngineCall.convolve], ?_, Or.inr rfl⟩
    simp only [Convolver.Process.cycle, Convolver.Process.filtered, hq, Bool.not_eq_true,
      Bool.not_false, if_true]
    simp [APFConvolver.logged]

theorem installedFilter_rest (l rest : List EngineCall)
    (h : rest = [] ∨ rest = [EngineCall.rotate_queues, EngineCall.convolve]) :
    installedFilter (l ++ rest) = installedFilter l := by
  rcases h with h | h <;> subst h <;> simp [installedFilter_append]

/-- The filter update when the assigned filter is non-null and differs from
`convfilter`: `set_filter` is called on the engine left by the first convolution. -/
theorem logged_update_swap (E : APFConvolver σ) (w : Convolver (σ × List EngineCall))
    (f : FilterRef) (hf : w.filter = some f) (hne : some f ≠ w.convfilter) :
    (Convolver.Process.update E.logged w).1 = some f ∧
    (Convolver.Process.update E.logged w).2.2 =
      w.convolver.2 ++
        [EngineCall.add_block, EngineCall.convolve, EngineCall.set_filter f] := by
  have h1 := logged_first E w
  simp only [Convolver.Process.update, hf, hne, ne_eq, not_false_eq_true, if_true]
  refine ⟨trivial, ?_⟩
  show (Convolver.Process.first E.logged w).2.2 ++ [EngineCall.set_filter f] = _
  rw [h1]
  simp

/-- The filter update when the assigned filter is null or equal to `convfilter`:
the engine is left as the first convolution left it. -/
theorem logged_update_keep (E : APFConvolver σ) (w : Convolver (σ × List EngineCall))
    (h : w.filter = none ∨ w.filter = w.convfilter) :
    (Convolver.Process.update E.logged w).1 = w.convfilter ∧
    (Convolver.Process.update E.logged w).2.2 =
      w.convolver.2 ++ [EngineCall.add_block, EngineCall.convolve] := by
  have h1 := logged_first E w
  rcases hfw : w.filter with _ | f
  · simp only [Convolver.Process.update, hfw]
    exact ⟨trivial, h1⟩
  · have heq : w.convfilter = some f := by
      rcases h with h | h
      · rw [hfw] at h; exact absurd h (by simp)
      · rw [← h, hfw]
    have hu : Convolver.Process.update E.logged w =
        (w.convfilter, (Convolver.Process.first E.logged w).2) := by
      simp only [Convolver.Process.update, hfw]
      rw [heq]
      simp
    rw [hu]
    exact ⟨rfl, h1⟩

/-- A pass keeps `convfilter` equal to the filter installed in the engine. -/
theorem logged_cycle_installed (E : APFConvolver σ)
    (F : (Nat → ℚ) → Nat → Nat → Nat → ℚ → ℚ) (w : Convolver (σ × List EngineCall))
    (hinv : installedFilter w.convolver.2 = w.convfilter) :
    installedFilter (Convolver.Process.cycle E.logged F w).convolver.2 =
      (Convolver.Process.cycle E.logged F w).convfilter := by
  obtain ⟨rest, hlog, hrest⟩ := logged_cycle E F w
  show _ = (Convolver.Process.update E.logged w).1
  rw [hlog, installedFilter_rest _ _ hrest]
  by_cases hk : w.filter = none ∨ w.filter = w.convfilter
  · rw [(logged_update_keep E w hk).2, (logged_update_keep E w hk).1, installedFilter_append,
      ← hinv]
    simp
  · rcases hfw : w.filter with _ | f
    · exact absurd (Or.inl hfw) hk
    · have hne : some f ≠ w.convfilter := fun h => hk (Or.inr (hfw.trans h))
      rw [(logged_update_swap E w f hfw hne).2, (logged_update_swap E w f hfw hne).1,
        installedFilter_append]
      simp

theorem SetResponse_convolver (w : Convolver σ) (f : FilterRef) (d : ℚ) :
    (w.SetResponse f d).convolver = w.convolver := by
  unfold Convolver.SetResponse
  by_cases h : some f = w.filter
  · simp [h]
  · simp [h]

theorem SetResponse_convfilter (w : Convolver σ) (f : FilterRef) (d : ℚ) :
    (w.SetResponse f d).convfilter = w.convfilter := by
  unfold Convolver.SetResponse
  by_cases h : some f = w.filter
  · simp [h]
  · simp [h]

theorem released_convolver (w : Convolver σ) (c : BlockCall) :
    (w.released c).convolver = w.convolver := by
  unfold Convolver.released
  rcases c.response with _ | ⟨f, d⟩
  · rfl
  · exact SetResponse_convolver w f d

theorem released_convfilter (w : Convolver σ) (c : BlockCall) :
    (w.released c).convfilter = w.convfilter := by
  unfold Convolver.released
  rcases c.response with _ | ⟨f, d⟩
  · rfl
  · exact SetResponse_convfilter w f d

/-- Over any run of blocks that starts with `convfilter` equal to the installed
filter (as for a fresh worker with a fresh engine), it stays so at every block. -/
theorem atBlock_installed (E : APFConvolver σ) (F : (Nat → ℚ) → Nat → Nat → Nat → ℚ → ℚ)
    (w0 : Convolver (σ × List EngineCall)) (calls : Nat → BlockCall)
    (h0 : installedFilter w0.convolver.2 = w0.convfilter) (k : Nat) :
    installedFilter (Convolver.atBlock E.logged F w0 calls k).convolver.2 =
      (Convolver.atBlock E.logged F w0 calls k).convfilter := by
  rw [Convolver.atBlock, released_convolver, released_convfilter]
  induction k with
  | zero => exact h0
  | succ k ih =>
    simp only [Convolver.afterBlocks]
    apply logged_cycle_installed
    rw [released_convolver, released_convfilter]
    exact ih

/-- C17: one pass over an engine whose calls are logged, the local `convfilter`
naming the filter installed in the engine.  If the assigned filter is non-null
and differs from the installed one, `set_filter` is called once, right after the
first convolution, and the assigned filter is then the installed one; if it is
null or equal to the installed one, `set_filter` is not called and the installed
filter stays.  After a pass with a non-null assigned filter the installed filter
is the assigned one. -/
theorem Process_filter_swap (E : APFConvolver σ) (F : (Nat → ℚ) → Nat → Nat → Nat → ℚ → ℚ)
    (w : Convolver (σ × List EngineCall))
    (hinv : installedFilter w.convolver.2 = w.convfilter) :
    (∀ f, w.filter = some f → some f ≠ w.convfilter →
      (∃ rest, (Convolver.Process.cycle E.logged F w).convolver.2 =
          w.convolver.2 ++
            [EngineCall.add_block, EngineCall.convolve, EngineCall.set_filter f] ++ rest ∧
        (rest = [] ∨ rest = [EngineCall.rotate_queues, EngineCall.convolve])) ∧
      installedFilter (Convolver.Process.cycle E.logged F w).convolver.2 = some f) ∧
    ((w.filter = none ∨ w.filter = w.convfilter) →
      (∃ rest, (Convolver.Process.cycle E.logged F w).convolver.2 =
          w.convolver.2 ++ [EngineCall.add_block, EngineCall.convolve] ++ rest ∧
        (rest = [] ∨ rest = [EngineCall.rotate_queues, EngineCall.convolve])) ∧
      installedFilter (Convolver.Process.cycle E.logged F w).convolver.2 =
        installedFilter w.convolver.2) ∧
    (∀ f, w.filter = some f →
      installedFilter (Convolver.Process.cycle E.logged F w).convolver.2 = some f) ∧
    installedFilter (Convolver.Process.cycle E.logged F w).convolver.2 =
      (Convolver.Process.cycle E.logged F w).convfilter := by
  obtain ⟨rest, hlog, hrest⟩ := logged_cycle E F w
  have hswap := logged_update_swap E w
  have hkeep := logged_update_keep E w
  have hA : ∀ f, w.filter = some f → some f ≠ w.convfilter →
      installedFilter (Convolver.Process.cycle E.logged F w).convolver.2 = some f := by
    intro f hf hne
    rw [hlog, installedFilter_rest _ _ hrest, (hswap f hf hne).2, installedFilter_append]
    simp
  have hB : (w.filter = none ∨ w.filter = w.convfilter) →
      installedFilter (Convolver.Process.cycle E.logged F w).convolver.2 =
        installedFilter w.convolver.2 := by
    intro h
    rw [hlog, installedFilter_rest _ _ hrest, (hkeep h).2, installedFilter_append]
    simp
  refine ⟨?_, ?_, ?_, ?_⟩
  · intro f hf hne
    exact ⟨⟨rest, by rw [hlog, (hswap f hf hne).2], hrest⟩, hA f hf hne⟩
  · intro h
    exact ⟨⟨rest, by rw [hlog, (hkeep h).2], hrest⟩, hB h⟩
  · intro f hf
    by_cases hne : some f = w.convfilter
    · rw [hB (Or.inr (hf.trans hne)), hinv, ← hne]
    · exact hA f hf hne
  · show _ = (Convolver.Process.update E.logged w).1
    rcases hfw : w.filter with _ | f
    · rw [hB (Or.inl hfw), (hkeep (Or.inl hfw)).1, hinv]
    · by_cases hne : some f = w.convfilter
      · rw [hB (Or.inr (hfw.trans hne)), (hkeep (Or.inr (hfw.trans hne))).1, hinv]
      · rw [hA f hfw hne, (hswap f hfw hne).1]

/-- Witness of C17 on `demoLogged`: filter 3 is assigned, none is installed. -/
theorem Process_filter_swap_witness :
    installedFilter demoLogged.convolver.2 = demoLogged.convfilter ∧
    installedFilter
      (Convolver.Process.cycle unitEngine.logged nearestSample demoLogged).convolver.2 = some 3 :=
  ⟨by decide,
    (Process_filter_swap unitEngine nearestSample demoLogged (by decide)).2.2.1 3 (by decide)⟩

/-! ## Theorems: buffer indices of Convolve -/

/-- The copy loop of `StartConvolution` reads `mem` at `_input + j * inputchannels`
for `j < blocksize` and nowhere else. -/
theorem StartConvolution_congr (w : Convolver σ) (mem mem2 : Nat → ℚ) (off ic : Nat) (hq : Bool)
    (h : ∀ j, j < w.blocksize → mem2 (off + j * ic) = mem (off + j * ic)) :
    w.StartConvolution mem2 off ic hq = w.StartConvolution mem off ic hq := by
  have e : (fun i => if i < w.blocksize then mem2 (off + i * ic) else w.input i) =
      (fun i => if i < w.blocksize then mem (off + i * ic) else w.input i) := by
    funext i
    by_cases hi : i < w.blocksize
    · simp [hi, h i hi]
    · simp [hi]
  simp only [Convolver.StartConvolution, e]
  congr 1
  funext i
  by_cases hi : i < w.blocksize
  · simp [hi, h i hi]
  · simp [hi]

/-- The first loop of `Convolve` reads `input` only at the indices `readIndex`. -/
theorem Convolve_start_congr (E : APFConvolver σ) (F : (Nat → ℚ) → Nat → Nat → Nat → ℚ → ℚ)
    (hq : Bool) (input input2 : Nat → ℚ) (ic oc B : Nat) :
    ∀ (ws : List (Convolver σ)) (i0 : Nat), (∀ w ∈ ws, w.blocksize = B) →
      (∀ k j, k < ws.length → j < B →
        input2 (ConvolverManager.Convolve.readIndex ic oc (i0 + k) j) =
          input (ConvolverManager.Convolve.readIndex ic oc (i0 + k) j)) →
      ConvolverManager.Convolve.start E F hq input2 ic oc i0 ws =
        ConvolverManager.Convolve.start E F hq input ic oc i0 ws := by
  intro ws
  induction ws with
  | nil => intro i0 _ _; rfl
  | cons w rest ih =>
    intro i0 hbs h
    simp only [ConvolverManager.Convolve.start]
    have hw : w.blocksize = B := hbs w (List.mem_cons_self _ _)
    have e1 : w.StartConvolution input2 (i0 / oc) ic hq =
        w.StartConvolution input (i0 / oc) ic hq := by
      apply StartConvolution_congr
      intro j hj
      have := h 0 j (by simp) (by rw [← hw]; exact hj)
      simpa [ConvolverManager.Convolve.readIndex] using this
    have e2 := ih (i0 + 1) (fun x hx => hbs x (List.mem_cons_of_mem _ hx))
      (by
        intro k j hk hj
        have := h (k + 1) j (by simp; omega) hj
        have e : i0 + 1 + k = i0 + (k + 1) := by omega
        rw [e]
        exact this)
    rw [e1, e2]

theorem readIndex_lt (ic oc n B i j : Nat) (hoc : 1 ≤ oc) (hic : n * oc ≤ ic) (hi : i < n)
    (hj : j < B) : ConvolverManager.Convolve.readIndex ic oc i j < B * ic := by
  unfold ConvolverManager.Convolve.readIndex
  have h1 : i / oc ≤ i := Nat.div_le_self _ _
  have h2 : n ≤ n * oc := Nat.le_mul_of_pos_right _ hoc
  have h3 : (j + 1) * ic ≤ B * ic := Nat.mul_le_mul_right _ hj
  have h4 : (j + 1) * ic = j * ic + ic := by ring
  omega

theorem writeIndex_lt (oc B i j : Nat) (hoc : 1 ≤ oc) (hj : j < B) :
    ConvolverManager.Convolve.writeIndex oc i j < B * oc := by
  unfold ConvolverManager.Convolve.writeIndex
  have h1 : i % oc < oc := Nat.mod_lt _ hoc
  have h3 : (j + 1) * oc ≤ B * oc := Nat.mul_le_mul_right _ hj
  have h4 : (j + 1) * oc = j * oc + oc := by ring
  omega

/-- C18: in a Convolve call with `outputchannels ≥ 1`,
`inputchannels ≥ nconvolvers * outputchannels` and workers of the manager's
block size, every index read, `i / outputchannels + j * inputchannels`, is below
`blocksize * inputchannels` and every index written,
`i % outputchannels + j * outputchannels`, is below `blocksize * outputchannels`
(`i < nconvolvers`, `j < blocksize`).  These are the indices the code uses: worker
`i` gets `input[readIndex]` as its sample `j`, the call does not depend on
`input` at or beyond `blocksize * inputchannels`, and it leaves `output` at or
beyond `blocksize * outputchannels` as it was. -/
theorem Convolve_indices_in_bounds (E : APFConvolver σ)
    (F : (Nat → ℚ) → Nat → Nat → Nat → ℚ → ℚ) (m : ConvolverManager σ)
    (input output : Nat → ℚ) (ic oc : Nat) (hoc : 1 ≤ oc)
    (hic : m.convolvers.length * oc ≤ ic)
    (hbs : ∀ w ∈ m.convolvers, w.blocksize = m.blocksize) :
    (∀ i j, i < m.convolvers.length → j < m.blocksize →
      ConvolverManager.Convolve.readIndex ic oc i j < m.blocksize * ic ∧
      ConvolverManager.Convolve.writeIndex oc i j < m.blocksize * oc) ∧
    (∀ i j, i < m.convolvers.length → j < m.blocksize →
      ∃ w, (m.Convolve E F input output ic oc).1.convolvers[i]? = some w ∧
        w.input j = input (ConvolverManager.Convolve.readIndex ic oc i j)) ∧
    (∀ input2 : Nat → ℚ, (∀ p, p < m.blocksize * ic → input2 p = input p) →
      m.Convolve E F input2 output ic oc = m.Convolve E F input output ic oc) ∧
    (∀ p, (∀ i j, i < m.convolvers.length → j < m.blocksize →
        p ≠ ConvolverManager.Convolve.writeIndex oc i j) →
      (m.Convolve E F input output ic oc).2 p = output p) ∧
    (∀ p, m.blocksize * oc ≤ p → (m.Convolve E F input output ic oc).2 p = output p) := by
  have hoc0 : 0 < oc := hoc
  have hlen := Convolve_start_length E F m.hqproc input ic oc m.convolvers 0
  have hbs2 := Convolve_start_blocksize E F m.hqproc input ic oc m.blocksize m.convolvers 0 hbs
  have hbound : ∀ i j, i < m.convolvers.length → j < m.blocksize →
      ConvolverManager.Convolve.readIndex ic oc i j < m.blocksize * ic ∧
      ConvolverManager.Convolve.writeIndex oc i j < m.blocksize * oc :=
    fun i j hi hj => ⟨readIndex_lt ic oc _ _ i j hoc hic hi hj, writeIndex_lt oc _ i j hoc hj⟩
  have hwrite : ∀ p, (∀ i j, i < m.convolvers.length → j < m.blocksize →
        p ≠ ConvolverManager.Convolve.writeIndex oc i j) →
      (m.Convolve E F input output ic oc).2 p = output p := by
    intro p hp
    simp only [ConvolverManager.Convolve]
    apply Convolve_finish_unchanged oc m.blocksize hoc0 _ 0 output p hbs2
    intro k hk
    rw [hlen] at hk
    rintro ⟨h1, h2⟩
    apply hp k (p / oc) hk h2
    unfold ConvolverManager.Convolve.writeIndex
    have := Nat.mod_add_div p oc
    rw [Nat.zero_add] at h1
    rw [h1, Nat.mul_comm]
    exact this.symm
  refine ⟨hbound, ?_, ?_, hwrite, ?_⟩
  · intro i j hi hj
    have hg := Convolve_start_getElem E F m.hqproc input ic oc m.convolvers 0 i
    rw [List.getElem?_eq_getElem hi, Option.map_some', Nat.zero_add] at hg
    refine ⟨_, hg, ?_⟩
    rw [threadPass_input, StartConvolution_input _ _ _ _ _ _
      (by rw [hbs _ (List.getElem_mem _)]; exact hj)]
    rfl
  · intro input2 h2
    have hs := Convolve_start_congr E F m.hqproc input input2 ic oc m.blocksize m.convolvers 0 hbs
      (by
        intro k j hk hj
        rw [Nat.zero_add]
        exact h2 _ (hbound k j hk hj).1)
    simp only [ConvolverManager.Convolve, hs]
  · intro p hp
    apply hwrite
    intro i j hi hj heq
    have := (hbound i j hi hj).2
    omega

/-- Witness of C18 on `demoManager` (one worker, block size 64) with two input
channels and one output channel: worker 0, sample 63. -/
theorem Convolve_indices_in_bounds_witness :
    (1 ≤ 1 ∧ demoManager.convolvers.length * 1 ≤ 2 ∧
      ∀ w ∈ demoManager.convolvers, w.blocksize = demoManager.blocksize) ∧
    (ConvolverManager.Convolve.readIndex 2 1 0 63 < demoManager.blocksize * 2 ∧
      ConvolverManager.Convolve.writeIndex 1 0 63 < demoManager.blocksize * 1) :=
  ⟨⟨le_refl 1, by decide, by decide⟩,
    (Convolve_indices_in_bounds unitEngine nearestSample demoManager (fun p => (p : ℚ))
      (fun _ => 0) 2 1 (le_refl 1) (by decide) (by decide)).1 0 63 (by decide) (by decide)⟩

/-! ## Theorems: LoadedVersions -/

theorem Register_versions (r : LoadedVersions) (name version : String) :
    (r.Register name version).2.versions =
      r.versions ++ [{ name := name, version := version }] := rfl

/-- The registry after a sequence of calls holds one entry per call, in order. -/
theorem afterCalls_versions (calls : List (String × String)) :
    (LoadedVersions.afterCalls calls).versions =
      calls.map (fun c => ({ name := c.1, version := c.2 } : VERSION)) := by
  have h : ∀ (cs : List (String × String)) (r : LoadedVersions),
      (cs.foldl (fun r c => (r.Register c.1 c.2).2) r).versions =
        r.versions ++ cs.map (fun c => ({ name := c.1, version := c.2 } : VERSION)) := by
    intro cs
    induction cs with
    | nil => intro r; simp
    | cons c rest ih =>
      intro r
      rw [List.foldl_cons, ih, Register_versions]
      simp
  simpa [LoadedVersions.afterCalls] using h calls { versions := [] }

/-- The search loop returns the empty string when no entry has the name. -/
theorem GetVersion_loop_none (name : String) (vs : List VERSION)
    (h : ∀ v ∈ vs, v.name ≠ name) : LoadedVersions.GetVersion.loop name vs = "" := by
  induction vs with
  | nil => rfl
  | cons v rest ih =>
    have hv : v.name ≠ name := h v (List.mem_cons_self _ _)
    simp only [LoadedVersions.GetVersion.loop, hv, if_false]
    exact ih (fun x hx => h x (List.mem_cons_of_mem _ hx))

/-- The search loop returns the version of the first entry with the name. -/
theorem GetVersion_loop_first (name : String) (pre post : List VERSION) (v : VERSION)
    (hpre : ∀ x ∈ pre, x.name ≠ name) (hv : v.name = name) :
    LoadedVersions.GetVersion.loop name (pre ++ v :: post) = v.version := by
  induction pre with
  | nil => simp [LoadedVersions.GetVersion.loop, hv]
  | cons x rest ih =>
    have hx : x.name ≠ name := hpre x (List.mem_cons_self _ _)
    simp only [List.cons_append, LoadedVersions.GetVersion.loop, hx, if_false]
    exact ih (fun y hy => hpre y (List.mem_cons_of_mem _ hy))

/-- C14: after any sequence of Register calls, GetVersion(name) returns the empty
string if no entry of that name was registered; after a further
Register(name, version), when no earlier entry has that name, GetVersion(name)
returns `version`; Register returns the number of entries registered before
it; and in general GetVersion returns the version of the first entry registered
under the name. -/
theorem LoadedVersions_GetVersion (calls : List (String × String)) (name version : String) :
    ((∀ c ∈ calls, c.1 ≠ name) → (LoadedVersions.afterCalls calls).GetVersion name = "") ∧
    ((∀ c ∈ calls, c.1 ≠ name) →
      ((LoadedVersions.afterCalls calls).Register name version).2.GetVersion name = version) ∧
    ((LoadedVersions.afterCalls calls).Register name version).1 = calls.length ∧
    (LoadedVersions.afterCalls (calls ++ [(name, version)])).versions =
      ((LoadedVersions.afterCalls calls).Register name version).2.versions ∧
    (∀ pre post v, calls = pre ++ (name, v) :: post → (∀ c ∈ pre, c.1 ≠ name) →
      (LoadedVersions.afterCalls calls).GetVersion name = v) := by
  have hmem : (∀ c ∈ calls, c.1 ≠ name) →
      ∀ x ∈ (LoadedVersions.afterCalls calls).versions, x.name ≠ name := by
    intro h x hx
    rw [afterCalls_versions] at hx
    obtain ⟨c, hc, rfl⟩ := List.mem_map.mp hx
    exact h c hc
  refine ⟨?_, ?_, ?_, ?_, ?_⟩
  · intro h
    exact GetVersion_loop_none name _ (hmem h)
  · intro h
    unfold LoadedVersions.GetVersion
    rw [Register_versions]
    exact GetVersion_loop_first name _ [] { name := name, version := version } (hmem h) rfl
  · simp [LoadedVersions.Register, afterCalls_versions]
  · rw [Register_versions, afterCalls_versions, afterCalls_versions]
    simp
  · intro pre post v hc hpre
    unfold LoadedVersions.GetVersion
    rw [afterCalls_versions, hc, List.map_append, List.map_cons]
    apply GetVersion_loop_first name _ _ { name := name, version := v } _ rfl
    intro x hx
    obtain ⟨c, hc2, rfl⟩ := List.mem_map.mp hx
    exact hpre c hc2

/-! ## Theorems: SOFA -/

/-- C15 (the code at the failing input): on a file whose `Data.Delay` has the three
dimensions M, R, E, `get_delays` for receiver 1 and emitter 0 reads from
`start = [0, 0, 0]`, the same block as for receiver 0, because `start[1]` is
overwritten with `indexE` and `start[2]` is never set; `get_ir` on the same file
puts the receiver in dimension 1 and the emitter in dimension 2. -/
theorem get_delays_drops_receiver :
    (1 < demoSofa.R ∧ 0 < demoSofa.E) ∧
    demoSofa.get_delays 1 0 = some ([0, 0, 0], [3, 1, 1]) ∧
    demoSofa.get_delays 0 0 = demoSofa.get_delays 1 0 ∧
    demoSofa.get_delays 0 1 = some ([0, 1, 0], [3, 1, 1]) ∧
    demoSofa.get_ir 0 1 0 = some ([0, 1, 0, 0], [1, 1, 1, 8]) ∧
    demoSofa.get_ir 0 0 1 = some ([0, 0, 1, 0], [1, 1, 1, 8]) := by
  decide

/-- The part of C15 that holds: an index out of range makes `get_delays` return
false without reading. -/
theorem get_delays_out_of_range (s : SOFA) (indexR indexE : Nat)
    (h : s.R ≤ indexR ∨ s.E ≤ indexE) : s.get_delays indexR indexE = none := by
  unfold SOFA.get_delays
  rcases s.get_var "Data.Delay" with _ | v
  · rfl
  · simp only [ge_iff_le, h, if_true]

/-- The part of C15 that holds: when `Data.Delay` has exactly two dimensions, the
read starts at receiver `indexR` in dimension 1. -/
theorem get_delays_two_dims (s : SOFA) (v : SofaVar) (indexR indexE : Nat)
    (hv : s.get_var "Data.Delay" = some v) (hd : v.dims.length = 2)
    (hR : indexR < s.R) (hE : indexE < s.E) :
    ∃ count, s.get_delays indexR indexE = some ([0, indexR], count) := by
  have hno : ¬ (s.R ≤ indexR ∨ s.E ≤ indexE) := by omega
  unfold SOFA.get_delays
  simp only [hv, hd, ge_iff_le, hno, if_false, gt_iff_lt, lt_irrefl]
  exact ⟨_, rfl⟩

end Bbcat
